import Mathlib

/-!
Zip-cracker: candidate generation, bounded queue and first-winner coordination.

A shallow embedding of `src/zip_cracker.cpp`.

* `std::string` is a `List Char`; `size_t` is a `Nat` (reduced modulo `2^64`
  where the source can wrap).
* `BoundedQueue<T>` is a record of its three data members; a call that would
  wait on its condition variable is reported as *blocked* and leaves the
  record untouched.
* The two producers are loops over an explicit local state; the values read
  from `password_found` and returned by `queue.push` are inputs of the loop.
* A run of the producer thread and the worker threads is an interleaving of
  steps on a shared state `Sys`: every access to the queue or to
  `password_found` is a step of its own, and the block of `worker` guarded by
  `password_mutex` is one step. A schedule names the thread that moves next.
-/

namespace ZipCracker

/-! ## BoundedQueue -/

/-- The data members of `BoundedQueue<T>`: the FIFO `q_`, the capacity `cap_`
and the closed flag `done_`. -/
structure BoundedQueue (T : Type) where
  q_ : List T
  cap_ : Nat
  done_ : Bool
deriving DecidableEq, Repr

/-- The constructor `BoundedQueue(cap)`: empty, open. -/
def BoundedQueue.new {T : Type} (cap : Nat) : BoundedQueue T :=
  { q_ := [], cap_ := cap, done_ := false }

/-- `push(item)`. The wait predicate is `q_.size() < cap_ || done_`; while it
is false the caller stays blocked (`none`). Otherwise the call returns `false`
when `done_` is set and enqueues and returns `true` when it is not. -/
def BoundedQueue.push {T : Type} (s : BoundedQueue T) (item : T) :
    BoundedQueue T × Option Bool :=
  if decide (s.q_.length < s.cap_) || s.done_ then
    if s.done_ then (s, some false)
    else ({ s with q_ := s.q_ ++ [item] }, some true)
  else (s, none)

/-- `pop(item)`. The wait predicate is `!q_.empty() || done_`; while it is
false the caller stays blocked (`none`). Otherwise the call returns `false`
(`some none`) on an empty queue and moves the front out (`some (some x)`)
on a non-empty one. -/
def BoundedQueue.pop {T : Type} (s : BoundedQueue T) :
    BoundedQueue T × Option (Option T) :=
  if !s.q_.isEmpty || s.done_ then
    match s.q_ with
    | [] => (s, some none)
    | x :: rest => ({ s with q_ := rest }, some (some x))
  else (s, none)

/-- `set_done()`: sets `done_`. -/
def BoundedQueue.set_done {T : Type} (s : BoundedQueue T) : BoundedQueue T :=
  { s with done_ := true }

/-- A call on the queue. -/
inductive QOp (T : Type) where
  | push (item : T)
  | pop
  | set_done
deriving DecidableEq, Repr

/-- What a call on the queue did: it stayed blocked, `push` returned a
boolean, `pop` returned `false` (`none`) or an item, or `set_done` returned. -/
inductive QEvent (T : Type) where
  | blocked
  | pushRet (item : T) (ok : Bool)
  | popRet (r : Option T)
  | closed
deriving DecidableEq, Repr

/-- One call applied to the queue. -/
def BoundedQueue.apply {T : Type} (s : BoundedQueue T) : QOp T → BoundedQueue T × QEvent T
  | .push item =>
    match s.push item with
    | (s', some ok) => (s', .pushRet item ok)
    | (s', none) => (s', .blocked)
  | .pop =>
    match s.pop with
    | (s', some r) => (s', .popRet r)
    | (s', none) => (s', .blocked)
  | .set_done => (s.set_done, .closed)

/-- A finite sequence of calls applied in order, with the log of what each did. -/
def BoundedQueue.run {T : Type} (s : BoundedQueue T) : List (QOp T) → BoundedQueue T × List (QEvent T)
  | [] => (s, [])
  | op :: ops =>
    let r := s.apply op
    let rs := BoundedQueue.run r.1 ops
    (rs.1, r.2 :: rs.2)

/-- The items of the pushes that returned `true`, in call order. -/
def accepted {T : Type} : List (QEvent T) → List T
  | [] => []
  | .pushRet item true :: es => item :: accepted es
  | _ :: es => accepted es

/-- The items returned by the pops that returned `true`, in call order. -/
def delivered {T : Type} : List (QEvent T) → List T
  | [] => []
  | .popRet (some x) :: es => x :: delivered es
  | _ :: es => delivered es

/-- The number of `pop` calls in a sequence of calls. -/
def popCalls {T : Type} : List (QOp T) → Nat
  | [] => 0
  | .pop :: ops => popCalls ops + 1
  | _ :: ops => popCalls ops

/-! ## Constants and character sets -/

/-- `MAX_MASK_SIZE`. -/
def MAX_MASK_SIZE : Nat := 15000000

/-- `QUEUE_CAPACITY`. -/
def QUEUE_CAPACITY : Nat := 50000

/-- `std::numeric_limits<size_t>::max()` on a 64-bit target. -/
def SIZE_MAX : Nat := 2 ^ 64 - 1

/-- `DIGITS`. -/
def DIGITS : List Char := "0123456789".toList

/-- `LOWERS`. -/
def LOWERS : List Char := "abcdefghijklmnopqrstuvwxyz".toList

/-- `UPPERS`. -/
def UPPERS : List Char := "ABCDEFGHIJKLMNOPQRSTUVWXYZ".toList

/-- `SPECIALS` (the braces, the apostrophe and the backquote are written as
escapes). -/
def SPECIALS : List Char := "!@#$%^&*()_+-=[]\x7b\x7d|;:\x27,.<>?/~\x60".toList

/-- `ALPHANUM = DIGITS + LOWERS + UPPERS`. -/
def ALPHANUM : List Char := DIGITS ++ LOWERS ++ UPPERS

/-! ## estimate_mask_size -/

/-- `safe_multiply(a, b, result)`: `none` when the function returns `false`,
`some result` when it returns `true`. The product is a `size_t` product. -/
def safe_multiply (a b : Nat) : Option Nat :=
  if a = 0 ∨ b = 0 then some 0
  else if a > SIZE_MAX / b then none
  else some ((a * b) % 2 ^ 64)

/-- The `switch (mask[i + 1])` of `estimate_mask_size`: the multiplier `mult`,
or `none` in the `default` case. -/
def estimate_mult (c : Char) : Option Nat :=
  if c = 'd' then some 10
  else if c = 'l' then some 26
  else if c = 'u' then some 26
  else if c = 's' then some SPECIALS.length
  else if c = 'a' then some ALPHANUM.length
  else none

/-- The `for` loop of `estimate_mask_size`, started at index `i` with the
running product `total`. Every iteration advances `i` by one or two, so
`fuel = mask.size() - i` iterations always reach the end of the loop. -/
def estimate_loop (mask : List Char) : Nat → Nat → Nat → Nat
  | 0, _, total => total
  | fuel + 1, i, total =>
    if i < mask.length then
      if mask[i]? = some '?' ∧ i + 1 < mask.length then
        match estimate_mult (mask.getD (i + 1) ' ') with
        | none => estimate_loop mask fuel (i + 2) total
        | some mult =>
          match safe_multiply total mult with
          | none => SIZE_MAX
          | some nt => estimate_loop mask fuel (i + 2) nt
      else estimate_loop mask fuel (i + 1) total
    else total

/-- `estimate_mask_size(mask)`. -/
def estimate_mask_size (mask : List Char) : Nat :=
  estimate_loop mask mask.length 0 1

/-- The pre-start check of `main` in mask mode (lines 476-488): `true` when
the template is accepted, `false` when `main` returns 1 before a producer or
a worker is started. -/
def mask_accepted (mask : List Char) : Bool :=
  if estimate_mask_size mask = SIZE_MAX then false
  else if estimate_mask_size mask > MAX_MASK_SIZE then false
  else true

/-! ## The producers -/

/-- What a producer did: the items whose `push` returned `true`, in order, the
final value of `total_passwords`, and whether `queue.set_done()` was called. -/
structure ProducerResult where
  published : List (List Char)
  total_passwords : Nat
  closed : Bool
deriving DecidableEq, Repr

/-- `struct State { std::string cur; size_t pos; }` of `mask_producer`. -/
structure PState where
  cur : List Char
  pos : Nat
deriving DecidableEq, Repr

/-- The `switch (mask[st.pos + 1])` of `mask_producer`: `(chars, len)`, or
`none` in the `default` case. -/
def mask_class (c : Char) : Option (List Char × Nat) :=
  if c = 'd' then some (DIGITS, 10)
  else if c = 'l' then some (LOWERS, 26)
  else if c = 'u' then some (UPPERS, 26)
  else if c = 's' then some (SPECIALS, SPECIALS.length)
  else if c = 'a' then some (ALPHANUM, ALPHANUM.length)
  else none

/-- What one iteration of `mask_producer` pushes on `gen` for a state that is
not complete (`st.pos < mask.size()`): the `len` extensions of a recognised
wildcard, or the single extension by the literal `mask[st.pos]`. -/
def mask_children (mask : List Char) (st : PState) : List PState :=
  if mask[st.pos]? = some '?' ∧ st.pos + 1 < mask.length then
    match mask_class (mask.getD (st.pos + 1) ' ') with
    | some (chars, len) =>
      (List.range len).map fun i => ⟨st.cur ++ [chars.getD i ' '], st.pos + 2⟩
    | none => [⟨st.cur ++ [mask.getD st.pos ' '], st.pos + 1⟩]
  else [⟨st.cur ++ [mask.getD st.pos ' '], st.pos + 1⟩]

/-- The `while` loop of `mask_producer` followed by `queue.set_done()`.
`found k` is the value of `password_found` read by iteration `k`, `pushOk k`
the value returned by the `queue.push` of iteration `k`; `gen` is the local
BFS queue, `out` the items pushed so far, `total` the counter
`total_passwords`. `none` when `fuel` iterations were not enough. -/
def mask_loop (mask : List Char) (found pushOk : Nat → Bool) :
    Nat → Nat → List PState → List (List Char) → Nat → Option ProducerResult
  | 0, _, _, _, _ => none
  | fuel + 1, k, gen, out, total =>
    match gen with
    | [] => some ⟨out, total, true⟩
    | st :: rest =>
      if found k then some ⟨out, total, true⟩
      else if st.pos ≥ mask.length then
        if pushOk k then
          mask_loop mask found pushOk fuel (k + 1) rest (out ++ [st.cur]) ((total + 1) % 2 ^ 64)
        else some ⟨out, (total + 1) % 2 ^ 64, true⟩
      else
        mask_loop mask found pushOk fuel (k + 1) (rest ++ mask_children mask st) out total

/-- `mask_producer(mask, queue)`, with `total0` the value of `total_passwords`
on entry. -/
def mask_producer (mask : List Char) (found pushOk : Nat → Bool) (total0 fuel : Nat) :
    Option ProducerResult :=
  mask_loop mask found pushOk fuel 0 [⟨[], 0⟩] [] total0

/-- The test of the stripping loop: `'\r'`, `'\n'` or `' '`. -/
def is_trailing (c : Char) : Bool :=
  c = '\r' || c = '\n' || c = ' '

/-- The inner `while` of `wordlist_producer`:
`while (!line.empty() && is_trailing(line.back())) line.pop_back()`.
Every iteration removes one character, so `line.size()` iterations suffice. -/
def strip_loop : Nat → List Char → List Char
  | 0, line => line
  | fuel + 1, line =>
    match line.getLast? with
    | none => line
    | some c => if is_trailing c then strip_loop fuel line.dropLast else line

/-- The stripped form of a line. -/
def strip_trailing (line : List Char) : List Char :=
  strip_loop line.length line

/-- The `while (std::getline(file, line) && !password_found)` loop of
`wordlist_producer` followed by `queue.set_done()`, over the lines that
`getline` returns. `found k` and `pushOk k` are the value of `password_found`
read and the value returned by `queue.push` in iteration `k`. -/
def wordlist_loop (found pushOk : Nat → Bool) :
    Nat → List (List Char) → List (List Char) → Nat → ProducerResult
  | _, [], out, total => ⟨out, total, true⟩
  | k, line :: rest, out, total =>
    if found k then ⟨out, total, true⟩
    else if strip_trailing line ≠ [] then
      if pushOk k then
        wordlist_loop found pushOk (k + 1) rest (out ++ [strip_trailing line]) ((total + 1) % 2 ^ 64)
      else ⟨out, (total + 1) % 2 ^ 64, true⟩
    else wordlist_loop found pushOk (k + 1) rest out total

/-- `wordlist_producer(path, queue)`: `file` is `none` when the file cannot
be opened, and the lines `getline` returns otherwise; `total0` is the value
of `total_passwords` on entry. -/
def wordlist_producer (file : Option (List (List Char))) (found pushOk : Nat → Bool)
    (total0 : Nat) : ProducerResult :=
  match file with
  | none => ⟨[], total0, true⟩
  | some lines => wordlist_loop found pushOk 0 lines [] total0

/-- The stop flag of a run in which `password_found` stays false. -/
def never_found : Nat → Bool := fun _ => false

/-- The push results of a run in which every `queue.push` returns `true`. -/
def always_pushed : Nat → Bool := fun _ => true

/-! ## The candidate space of a template, in the words of the specification -/

/-- The character class of a wildcard letter: the digits for `d`, the
lowercase letters for `l`, the uppercase letters for `u`, `SPECIALS` for `s`
and `ALPHANUM` for `a`; no class for any other character. -/
def wildcard_class (c : Char) : Option (List Char) :=
  if c = 'd' then some DIGITS
  else if c = 'l' then some LOWERS
  else if c = 'u' then some UPPERS
  else if c = 's' then some SPECIALS
  else if c = 'a' then some ALPHANUM
  else none

/-- The strings obtained from a template read left to right: a `?` followed
by a class letter is replaced by one member of the class, any other character
is copied. -/
inductive IsInstance : List Char → List Char → Prop
  | nil : IsInstance [] []
  | wildcard {d : Char} {rest : List Char} {cs : List Char} {x : Char} {s : List Char} :
      wildcard_class d = some cs → x ∈ cs → IsInstance rest s →
      IsInstance ('?' :: d :: rest) (x :: s)
  | literal {c : Char} {rest : List Char} {s : List Char} :
      (c = '?' → ∀ d ∈ rest.head?, wildcard_class d = none) → IsInstance rest s →
      IsInstance (c :: rest) (c :: s)

/-- The instances of a template as a list, leftmost wildcard most significant. -/
def spec_candidates : List Char → List (List Char)
  | [] => [[]]
  | [c] => [[c]]
  | c :: d :: rest =>
    if c = '?' then
      match wildcard_class d with
      | some cs => cs.flatMap fun x => (spec_candidates rest).map (x :: ·)
      | none => (spec_candidates (d :: rest)).map (c :: ·)
    else (spec_candidates (d :: rest)).map (c :: ·)

/-- The number of instances of a template: the product of the class sizes of
its wildcard tokens. -/
def spec_count : List Char → Nat
  | [] => 1
  | [_] => 1
  | c :: d :: rest =>
    if c = '?' then
      match wildcard_class d with
      | some cs => cs.length * spec_count rest
      | none => spec_count (d :: rest)
    else spec_count (d :: rest)

/-! ## The run: one producer and the workers, interleaved -/

/-- The local state of the producer at its `while` condition: the lines not
yet read (`wordlist_producer`), or the template and the BFS queue `gen`
(`mask_producer`). -/
inductive Source where
  | wordlist (lines : List (List Char))
  | mask (template : List Char) (gen : List PState)
deriving DecidableEq, Repr

/-- The input side of one evaluation of the producer's loop. `none`: the
`while` condition fails (`getline` fails, `gen` is empty). Otherwise the string
the iteration passes to `queue.push`, if it pushes one, and the local state
after the iteration. -/
def Source.next : Source → Option (Option (List Char) × Source)
  | .wordlist [] => none
  | .wordlist (line :: rest) =>
    if strip_trailing line ≠ [] then some (some (strip_trailing line), .wordlist rest)
    else some (none, .wordlist rest)
  | .mask _ [] => none
  | .mask t (st :: rest) =>
    if st.pos ≥ t.length then some (some st.cur, .mask t rest)
    else some (none, .mask t (rest ++ mask_children t st))

/-- Where the producer thread stands: at its `while` condition, inside
`queue.push(item)`, before `queue.set_done()`, or returned. -/
inductive ProducerPc where
  | loop (src : Source)
  | pushing (item : List Char) (src : Source)
  | closing
  | finished
deriving DecidableEq, Repr

/-- Where a worker thread (one whose `zip_open` succeeded) stands: at its
`while` condition, inside `queue.pop(pwd)`, holding a popped `pwd` before the
oracle call, at the mutex-guarded block after a success, or returned. -/
inductive WorkerPc where
  | loop
  | popping
  | testing (pwd : List Char)
  | claiming (pwd : List Char)
  | exited
deriving DecidableEq, Repr

/-- The shared state of a run and the position of every thread. The last
three fields are history, written but never read by a step: the items whose
push returned true, the (worker, candidate) pairs of the oracle calls, and
the values assigned to `correct_password`, each in order. -/
structure Sys where
  queue : BoundedQueue (List Char)
  password_found : Bool
  correct_password : List Char
  attempts_made : Nat
  total_passwords : Nat
  producer : ProducerPc
  workers : List WorkerPc
  pushed : List (List Char)
  tested : List (Nat × List Char)
  assigned : List (List Char)
deriving DecidableEq, Repr

/-- The state in which `main` has started the producer and `n` workers on a
fresh queue of capacity `QUEUE_CAPACITY`; `total0` is `total_passwords` at
that point. -/
def Sys.init (src : Source) (n total0 : Nat) : Sys :=
  { queue := BoundedQueue.new QUEUE_CAPACITY
    password_found := false
    correct_password := []
    attempts_made := 0
    total_passwords := total0
    producer := .loop src
    workers := List.replicate n .loop
    pushed := []
    tested := []
    assigned := [] }

/-- One step of the producer; `none` when it is blocked in `push` or has
returned. At the `while` condition: the input side, then `password_found`,
then the body up to `total_passwords.fetch_add`. -/
def producer_step (s : Sys) : Option Sys :=
  match s.producer with
  | .loop src =>
    match src.next with
    | none => some { s with producer := .closing }
    | some (item, src') =>
      if s.password_found then some { s with producer := .closing }
      else
        match item with
        | none => some { s with producer := .loop src' }
        | some c =>
          some { s with total_passwords := (s.total_passwords + 1) % 2 ^ 64
                        producer := .pushing c src' }
  | .pushing c src =>
    match s.queue.push c with
    | (_, none) => none
    | (q', some true) => some { s with queue := q', producer := .loop src, pushed := s.pushed ++ [c] }
    | (q', some false) => some { s with queue := q', producer := .closing }
  | .closing => some { s with queue := s.queue.set_done, producer := .finished }
  | .finished => none

/-- One step of worker `i`; `none` when it is blocked in `pop`, has returned,
or does not exist. `oracle pwd` is whether `zip_fopen_index_encrypted`
succeeds and `zip_fread` ends with 0. The mutex-guarded block is one step.
The progress report only prints and is left out. -/
def worker_step (oracle : List Char → Bool) (s : Sys) (i : Nat) : Option Sys :=
  match s.workers[i]? with
  | none => none
  | some .loop =>
    if s.password_found then some { s with workers := s.workers.set i .exited }
    else some { s with workers := s.workers.set i .popping }
  | some .popping =>
    match s.queue.pop with
    | (_, none) => none
    | (q', some none) => some { s with queue := q', workers := s.workers.set i .exited }
    | (q', some (some pwd)) => some { s with queue := q', workers := s.workers.set i (.testing pwd) }
  | some (.testing pwd) =>
    some { s with attempts_made := (s.attempts_made + 1) % 2 ^ 64
                  tested := s.tested ++ [(i, pwd)]
                  workers := s.workers.set i (if oracle pwd then .claiming pwd else .loop) }
  | some (.claiming pwd) =>
    if !s.password_found then
      some { s with password_found := true
                    correct_password := pwd
                    queue := s.queue.set_done
                    assigned := s.assigned ++ [pwd]
                    workers := s.workers.set i .exited }
    else some { s with workers := s.workers.set i .exited }
  | some .exited => none

/-- A thread of the run. -/
inductive Tid where
  | producer
  | worker (i : Nat)
deriving DecidableEq, Repr

/-- One step of thread `t`, `none` when `t` cannot take a step. -/
def step (oracle : List Char → Bool) (s : Sys) : Tid → Option Sys
  | .producer => producer_step s
  | .worker i => worker_step oracle s i

/-- The state after a schedule: the threads take a step each in the order
of the schedule; a thread that cannot take a step when its turn comes is
passed over. -/
def exec (oracle : List Char → Bool) (s : Sys) : List Tid → Sys
  | [] => s
  | t :: ts =>
    match step oracle s t with
    | none => exec oracle s ts
    | some s' => exec oracle s' ts

/-- The number of steps actually taken under a schedule. -/
def steps_taken (oracle : List Char → Bool) (s : Sys) : List Tid → Nat
  | [] => 0
  | t :: ts =>
    match step oracle s t with
    | none => steps_taken oracle s ts
    | some s' => steps_taken oracle s' ts + 1

/-- The dictionary of the end-to-end scenario: wrong1, wrong2, secret, wrong3. -/
def demo_dictionary : Source :=
  .wordlist ["wrong1".toList, "wrong2".toList, "secret".toList, "wrong3".toList]

/-- An oracle that accepts only `secret`. -/
def secret_oracle : List Char → Bool := fun c => decide (c = "secret".toList)

/-- An oracle that rejects every candidate. -/
def reject_oracle : List Char → Bool := fun _ => false

/-- Ten rounds of producer, worker 0, worker 1. -/
def demo_schedule : List Tid :=
  (List.replicate 10 [Tid.producer, Tid.worker 0, Tid.worker 1]).flatten

/-- The number of BFS states `mask_producer` processes below a state standing
before the given rest of the template, that state included. -/
def tree_size : List Char → Nat
  | [] => 1
  | [_] => 2
  | c :: d :: rest =>
    if c = '?' then
      match wildcard_class d with
      | some cs => 1 + cs.length * tree_size rest
      | none => 1 + tree_size (d :: rest)
    else 1 + tree_size (d :: rest)

/-- The number of loop iterations the producer has left at most. -/
def Source.size : Source → Nat
  | .wordlist lines => lines.length
  | .mask t gen => (gen.map fun st => tree_size (t.drop st.pos)).sum

/-- The candidate space of a producer state: the candidates it publishes when
it is not interrupted. For `wordlist lines` the stripped non-empty lines, for
`mask t [("", 0)]` the instances of `t`. -/
def Source.candidates : Source → List (List Char)
  | .wordlist lines => (lines.map strip_trailing).filter (· ≠ [])
  | .mask t gen => gen.flatMap fun st => (spec_candidates (t.drop st.pos)).map (st.cur ++ ·)

/-- A bound on the steps the producer has left. -/
def ProducerPc.weight : ProducerPc → Nat
  | .loop src => 5 * src.size + 2
  | .pushing _ src => 5 * src.size + 6
  | .closing => 1
  | .finished => 0

/-- A bound on the steps a worker has left without a further item. -/
def WorkerPc.weight : WorkerPc → Nat
  | .loop => 2
  | .popping => 1
  | .testing _ => 3
  | .claiming _ => 1
  | .exited => 0

/-- A bound on the number of steps the run has left. -/
def Sys.budget (s : Sys) : Nat :=
  s.producer.weight + 3 * s.queue.q_.length + (s.workers.map WorkerPc.weight).sum

/-- The candidates the producer still has to offer. -/
def ProducerPc.todo : ProducerPc → List (List Char)
  | .loop src => src.candidates
  | .pushing item src => item :: src.candidates
  | .closing => []
  | .finished => []

/-- The candidate a worker has popped and not yet tested. -/
def WorkerPc.held : WorkerPc → List (List Char)
  | .testing pwd => [pwd]
  | _ => []

/-- The steps of `step`, one rule per branch of the code. -/
inductive Step (oracle : List Char → Bool) : Sys → Sys → Prop
  | prod_exit {s : Sys} {src : Source} :
      s.producer = .loop src → src.next = none →
      Step oracle s { s with producer := .closing }
  | prod_stop {s : Sys} {src src' : Source} {item : Option (List Char)} :
      s.producer = .loop src → src.next = some (item, src') → s.password_found = true →
      Step oracle s { s with producer := .closing }
  | prod_skip {s : Sys} {src src' : Source} :
      s.producer = .loop src → src.next = some (none, src') → s.password_found = false →
      Step oracle s { s with producer := .loop src' }
  | prod_item {s : Sys} {src src' : Source} {c : List Char} :
      s.producer = .loop src → src.next = some (some c, src') → s.password_found = false →
      Step oracle s { s with total_passwords := (s.total_passwords + 1) % 2 ^ 64
                             producer := .pushing c src' }
  | prod_push {s : Sys} {src : Source} {c : List Char} :
      s.producer = .pushing c src → s.queue.q_.length < s.queue.cap_ → s.queue.done_ = false →
      Step oracle s { s with queue := { s.queue with q_ := s.queue.q_ ++ [c] }
                             producer := .loop src
                             pushed := s.pushed ++ [c] }
  | prod_push_closed {s : Sys} {src : Source} {c : List Char} :
      s.producer = .pushing c src → s.queue.done_ = true →
      Step oracle s { s with producer := .closing }
  | prod_close {s : Sys} :
      s.producer = .closing →
      Step oracle s { s with queue := s.queue.set_done, producer := .finished }
  | w_stop {s : Sys} {i : Nat} :
      s.workers[i]? = some .loop → s.password_found = true →
      Step oracle s { s with workers := s.workers.set i .exited }
  | w_go {s : Sys} {i : Nat} :
      s.workers[i]? = some .loop → s.password_found = false →
      Step oracle s { s with workers := s.workers.set i .popping }
  | w_pop {s : Sys} {i : Nat} {x : List Char} {rest : List (List Char)} :
      s.workers[i]? = some .popping → s.queue.q_ = x :: rest →
      Step oracle s { s with queue := { s.queue with q_ := rest }
                             workers := s.workers.set i (.testing x) }
  | w_drained {s : Sys} {i : Nat} :
      s.workers[i]? = some .popping → s.queue.q_ = [] → s.queue.done_ = true →
      Step oracle s { s with workers := s.workers.set i .exited }
  | w_reject {s : Sys} {i : Nat} {pwd : List Char} :
      s.workers[i]? = some (.testing pwd) → oracle pwd = false →
      Step oracle s { s with attempts_made := (s.attempts_made + 1) % 2 ^ 64
                             tested := s.tested ++ [(i, pwd)]
                             workers := s.workers.set i .loop }
  | w_accept {s : Sys} {i : Nat} {pwd : List Char} :
      s.workers[i]? = some (.testing pwd) → oracle pwd = true →
      Step oracle s { s with attempts_made := (s.attempts_made + 1) % 2 ^ 64
                             tested := s.tested ++ [(i, pwd)]
                             workers := s.workers.set i (.claiming pwd) }
  | w_claim {s : Sys} {i : Nat} {pwd : List Char} :
      s.workers[i]? = some (.claiming pwd) → s.password_found = false →
      Step oracle s { s with password_found := true
                             correct_password := pwd
                             queue := s.queue.set_done
                             assigned := s.assigned ++ [pwd]
                             workers := s.workers.set i .exited }
  | w_lose {s : Sys} {i : Nat} {pwd : List Char} :
      s.workers[i]? = some (.claiming pwd) → s.password_found = true →
      Step oracle s { s with workers := s.workers.set i .exited }

/-- What holds in every state of a run over the candidate space `cands`. -/
structure Inv (oracle : List Char → Bool) (cands : List (List Char)) (s : Sys) : Prop where
  cap : s.queue.cap_ = QUEUE_CAPACITY
  offered : s.password_found = false → (s.pushed ++ s.producer.todo).Perm cands
  todo_mem : ∀ c ∈ s.pushed ++ s.producer.todo, c ∈ cands
  moved : (s.tested.map Prod.snd ++ s.workers.flatMap WorkerPc.held ++ s.queue.q_).Perm s.pushed
  accepted : ∀ c ∈ s.tested.map Prod.snd, oracle c = true →
    s.password_found = true ∨ WorkerPc.claiming c ∈ s.workers
  claiming : ∀ c, WorkerPc.claiming c ∈ s.workers → oracle c = true ∧ c ∈ cands
  exited : WorkerPc.exited ∈ s.workers →
    s.password_found = true ∨ (s.queue.q_ = [] ∧ s.queue.done_ = true)
  found_done : s.password_found = true → s.queue.done_ = true
  finished_done : s.producer = .finished → s.queue.done_ = true
  done_cause : s.queue.done_ = true → s.password_found = true ∨ s.producer = .finished
  winner_none : s.password_found = false → s.assigned = []
  winner_one : s.password_found = true →
    ∃ c, s.assigned = [c] ∧ s.correct_password = c ∧ oracle c = true ∧ c ∈ cands
  attempts : s.attempts_made = s.tested.length % 2 ^ 64

/-- The number of occurrences of a candidate in a list. -/
def cnt (a : List Char) (l : List (List Char)) : Nat :=
  @List.count _ instBEqOfDecidableEq a l

/-! ## Definitions for the counter, the work list and the estimate -/

/-- A schedule of `rounds` rounds of producer, worker 0, worker 1. -/
def round_robin (rounds : Nat) : List Tid :=
  (List.replicate rounds [Tid.producer, Tid.worker 0, Tid.worker 1]).flatten

/-- The local queue `gen` of `mask_producer` after `k` iterations of its loop
in an uninterrupted run (`password_found` false, every push accepted), from
the queue given; it stays empty once the loop has ended. -/
def mask_gen_after (mask : List Char) : Nat → List PState → List PState
  | 0, gen => gen
  | _ + 1, [] => []
  | k + 1, st :: rest =>
    if st.pos ≥ mask.length then mask_gen_after mask k rest
    else mask_gen_after mask k (rest ++ mask_children mask st)

/-- The number of complete candidates stored in `gen`: the states with
`pos >= mask.size()`. -/
def complete_count (mask : List Char) (gen : List PState) : Nat :=
  (gen.filter fun st => decide (st.pos ≥ mask.length)).length

/-- The sizes of the five classes: 10 for `d`, 26 for `l`, 26 for `u`, 30 for
`s`, 62 for `a`. -/
def class_size (c : Char) : Option Nat :=
  if c = 'd' then some 10
  else if c = 'l' then some 26
  else if c = 'u' then some 26
  else if c = 's' then some 30
  else if c = 'a' then some 62
  else none

/-- The class sizes of the wildcard tokens `estimate_mask_size` recognises in
its scan from the left: at a `?` that has a next character, a class letter
gives a token and any other next character is passed over together with the
`?`; any other character is passed over alone. -/
def estimate_tokens : List Char → List Nat
  | [] => []
  | [_] => []
  | c :: d :: rest =>
    if c = '?' then
      match class_size d with
      | some m => m :: estimate_tokens rest
      | none => estimate_tokens rest
    else estimate_tokens (d :: rest)

/-- The candidates the producer has counted in `total_passwords` and not yet
pushed: one while it is inside `queue.push`, none otherwise. -/
def ProducerPc.counted_ahead : ProducerPc → Nat
  | .pushing _ _ => 1
  | _ => 0

/-! ## BoundedQueue: lemmas -/

section QueueLemmas

variable {T : Type}

theorem accepted_delivered_run (s : BoundedQueue T) (ops : List (QOp T)) :
    s.q_ ++ accepted (s.run ops).2 = delivered (s.run ops).2 ++ (s.run ops).1.q_ := by
  induction ops generalizing s with
  | nil => simp [BoundedQueue.run, accepted, delivered]
  | cons op ops ih =>
    obtain ⟨q, cap, done⟩ := s
    cases op with
    | push item =>
      have h := ih (BoundedQueue.push ⟨q, cap, done⟩ item).1
      simp only [BoundedQueue.run, BoundedQueue.apply]
      unfold BoundedQueue.push at h ⊢
      by_cases hd : done = true
      · subst hd
        simpa [accepted, delivered] using h
      · have hd' : done = false := by simpa using hd
        subst hd'
        by_cases hc : q.length < cap
        · simp [hc, accepted, delivered] at h ⊢
          exact h
        · simp [hc, accepted, delivered] at h ⊢
          exact h
    | pop =>
      have h := ih (BoundedQueue.pop ⟨q, cap, done⟩).1
      simp only [BoundedQueue.run, BoundedQueue.apply]
      unfold BoundedQueue.pop at h ⊢
      cases q with
      | nil =>
        cases done <;> simpa [accepted, delivered] using h
      | cons x rest =>
        simp [accepted, delivered] at h ⊢
        exact h
    | set_done =>
      have h := ih (BoundedQueue.set_done ⟨q, cap, done⟩)
      simp only [BoundedQueue.run, BoundedQueue.apply]
      simpa [accepted, delivered, BoundedQueue.set_done] using h

theorem run_length_le (s : BoundedQueue T) (ops : List (QOp T))
    (h : s.q_.length ≤ s.cap_) :
    (s.run ops).1.q_.length ≤ s.cap_ ∧ (s.run ops).1.cap_ = s.cap_ := by
  induction ops generalizing s with
  | nil => simpa [BoundedQueue.run] using h
  | cons op ops ih =>
    obtain ⟨q, cap, done⟩ := s
    simp only at h
    cases op with
    | push item =>
      simp only [BoundedQueue.run, BoundedQueue.apply]
      unfold BoundedQueue.push
      by_cases hd : done = true
      · subst hd
        simpa using ih ⟨q, cap, true⟩ h
      · have hd' : done = false := by simpa using hd
        subst hd'
        by_cases hc : q.length < cap
        · simpa [hc] using ih ⟨q ++ [item], cap, false⟩ (by simpa using hc)
        · simpa [hc] using ih ⟨q, cap, false⟩ h
    | pop =>
      simp only [BoundedQueue.run, BoundedQueue.apply]
      unfold BoundedQueue.pop
      cases q with
      | nil =>
        cases done <;> simpa using ih ⟨[], cap, _⟩ h
      | cons x rest =>
        have h' : rest.length ≤ cap := by
          simp only [List.length_cons] at h
          omega
        simpa using ih ⟨rest, cap, done⟩ h'
    | set_done =>
      simp only [BoundedQueue.run, BoundedQueue.apply]
      simpa [BoundedQueue.set_done] using ih ⟨q, cap, true⟩ h

theorem run_closed (s : BoundedQueue T) (ops : List (QOp T)) (hd : s.done_ = true) :
    (s.run ops).1 = ⟨s.q_.drop (popCalls ops), s.cap_, true⟩ ∧
      delivered (s.run ops).2 = s.q_.take (popCalls ops) ∧
      (∀ item ok, QEvent.pushRet item ok ∈ (s.run ops).2 → ok = false) := by
  induction ops generalizing s with
  | nil =>
    obtain ⟨q, cap, done⟩ := s
    simp only at hd
    subst hd
    simp [BoundedQueue.run, delivered, popCalls]
  | cons op ops ih =>
    obtain ⟨q, cap, done⟩ := s
    simp only at hd
    subst hd
    cases op with
    | push item =>
      have h := ih ⟨q, cap, true⟩ rfl
      simp only [BoundedQueue.run, BoundedQueue.apply, BoundedQueue.push, popCalls]
      simp only [Bool.or_true, if_true]
      refine ⟨h.1, by simpa [delivered] using h.2.1, ?_⟩
      intro it ok hmem
      rcases List.mem_cons.1 hmem with heq | hmem'
      · cases heq
        rfl
      · exact h.2.2 it ok hmem'
    | pop =>
      simp only [BoundedQueue.run, BoundedQueue.apply, BoundedQueue.pop, popCalls]
      cases q with
      | nil =>
        have h := ih ⟨[], cap, true⟩ rfl
        simp only [Bool.or_true, if_true]
        refine ⟨by simpa using h.1, by simpa [delivered] using h.2.1, ?_⟩
        intro it ok hmem
        rcases List.mem_cons.1 hmem with heq | hmem'
        · cases heq
        · exact h.2.2 it ok hmem'
      | cons x rest =>
        have h := ih ⟨rest, cap, true⟩ rfl
        simp only [Bool.or_true, if_true]
        refine ⟨by simpa using h.1, by simpa [delivered] using h.2.1, ?_⟩
        intro it ok hmem
        rcases List.mem_cons.1 hmem with heq | hmem'
        · cases heq
        · exact h.2.2 it ok hmem'
    | set_done =>
      have h := ih ⟨q, cap, true⟩ rfl
      simp only [BoundedQueue.run, BoundedQueue.apply, BoundedQueue.set_done, popCalls]
      refine ⟨h.1, by simpa [delivered] using h.2.1, ?_⟩
      intro it ok hmem
      rcases List.mem_cons.1 hmem with heq | hmem'
      · cases heq
      · exact h.2.2 it ok hmem'

end QueueLemmas

/-! ## BoundedQueue: the claims -/

/-- C2: on an initially empty queue of any capacity, after any finite sequence
of push, pop and set_done calls the items accepted by the successful pushes
are exactly the items returned by the successful pops followed by the items
still queued, so the popped items are a prefix of the accepted ones (nothing is
lost, duplicated or reordered); and with capacity at least 3, pushing a, b, c
and popping three times returns a, b, c in that order and leaves the queue
empty. -/
theorem C2_fifo_no_loss {T : Type} (cap : Nat) (ops : List (QOp T)) (a b c : T) :
    (accepted ((BoundedQueue.new cap).run ops).2
        = delivered ((BoundedQueue.new cap).run ops).2 ++ ((BoundedQueue.new cap).run ops).1.q_) ∧
    (delivered ((BoundedQueue.new cap).run ops).2 <+: accepted ((BoundedQueue.new cap).run ops).2) ∧
    (3 ≤ cap →
      (BoundedQueue.new cap).run [.push a, .push b, .push c, .pop, .pop, .pop]
        = (BoundedQueue.new cap,
            [.pushRet a true, .pushRet b true, .pushRet c true,
             .popRet (some a), .popRet (some b), .popRet (some c)])) := by
  have h := accepted_delivered_run (BoundedQueue.new cap) ops
  have h' : accepted ((BoundedQueue.new cap).run ops).2
      = delivered ((BoundedQueue.new cap).run ops).2 ++ ((BoundedQueue.new cap).run ops).1.q_ := by
    simpa [BoundedQueue.new] using h
  refine ⟨h', ⟨_, h'.symm⟩, ?_⟩
  intro hcap
  have h1 : 0 < cap := by omega
  have h2 : 1 < cap := by omega
  have h3 : 2 < cap := by omega
  simp [BoundedQueue.run, BoundedQueue.apply, BoundedQueue.push, BoundedQueue.pop,
    BoundedQueue.new, h1, h2, h3]

theorem C2_fifo_no_loss_witness :
    3 ≤ 3 ∧
    (accepted ((BoundedQueue.new 3).run [QOp.push 1, .pop, .push 2, .set_done, .push 3, .pop, .pop]).2
        = delivered ((BoundedQueue.new 3).run [QOp.push 1, .pop, .push 2, .set_done, .push 3, .pop, .pop]).2
            ++ ((BoundedQueue.new 3).run [QOp.push 1, .pop, .push 2, .set_done, .push 3, .pop, .pop]).1.q_) ∧
    (delivered ((BoundedQueue.new 3).run [QOp.push 1, .pop, .push 2, .set_done, .push 3, .pop, .pop]).2
        <+: accepted ((BoundedQueue.new 3).run [QOp.push 1, .pop, .push 2, .set_done, .push 3, .pop, .pop]).2) ∧
    (3 ≤ 3 →
      (BoundedQueue.new 3).run [.push 10, .push 20, .push 30, .pop, .pop, .pop]
        = (BoundedQueue.new 3,
            [.pushRet 10 true, .pushRet 20 true, .pushRet 30 true,
             .popRet (some 10), .popRet (some 20), .popRet (some 30)])) :=
  ⟨by decide,
    C2_fifo_no_loss (T := Nat) 3 [.push 1, .pop, .push 2, .set_done, .push 3, .pop, .pop] 10 20 30⟩

/-- C3: on an initially empty queue of capacity C, after any finite sequence
of push, pop and set_done calls the number of queued items is at most C (and
the capacity itself never changes). -/
theorem C3_capacity_bound {T : Type} (cap : Nat) (ops : List (QOp T)) :
    ((BoundedQueue.new cap).run ops).1.q_.length ≤ cap ∧
      ((BoundedQueue.new cap).run ops).1.cap_ = cap := by
  have h := run_length_le (BoundedQueue.new (T := T) cap) ops (by simp [BoundedQueue.new])
  simpa [BoundedQueue.new] using h

/-- C4: from a closed queue holding xs, after any finite sequence of further
push, pop and set_done calls: the queue is still closed, every push in the
sequence returned false, a further push returns false and changes nothing, a
further set_done changes nothing, the successful pops returned the first items
of xs in order (as many as there were pop calls), the queue holds the rest of
xs, and once there were at least as many pop calls as items every further pop
returns false and changes nothing. -/
theorem C4_closed_drain {T : Type} (xs : List T) (cap : Nat) (ops : List (QOp T)) :
    ((BoundedQueue.mk xs cap true).run ops).1.done_ = true ∧
    (∀ item ok, QEvent.pushRet item ok ∈ ((BoundedQueue.mk xs cap true).run ops).2 → ok = false) ∧
    (∀ item, ((BoundedQueue.mk xs cap true).run ops).1.push item
        = (((BoundedQueue.mk xs cap true).run ops).1, some false)) ∧
    ((BoundedQueue.mk xs cap true).run ops).1.set_done = ((BoundedQueue.mk xs cap true).run ops).1 ∧
    delivered ((BoundedQueue.mk xs cap true).run ops).2 = xs.take (popCalls ops) ∧
    ((BoundedQueue.mk xs cap true).run ops).1.q_ = xs.drop (popCalls ops) ∧
    (xs.length ≤ popCalls ops →
      ((BoundedQueue.mk xs cap true).run ops).1.pop
        = (((BoundedQueue.mk xs cap true).run ops).1, some none)) := by
  obtain ⟨h1, h2, h3⟩ := run_closed (BoundedQueue.mk xs cap true) ops rfl
  simp only at h1 h2
  refine ⟨by rw [h1], h3, ?_, by rw [h1]; rfl, h2, by rw [h1], ?_⟩
  · intro item
    rw [h1]
    simp [BoundedQueue.push]
  · intro hlen
    rw [h1]
    have : List.drop (popCalls ops) xs = [] := List.drop_eq_nil_of_le hlen
    simp [BoundedQueue.pop, this]

theorem C4_closed_drain_witness :
    [1, 2].length ≤ popCalls [QOp.pop, .push 7, .pop, .set_done, .pop] ∧
    ((BoundedQueue.mk [1, 2] 5 true).run [QOp.pop, .push 7, .pop, .set_done, .pop]).1.done_ = true ∧
    (∀ item ok, QEvent.pushRet item ok ∈
        ((BoundedQueue.mk [1, 2] 5 true).run [QOp.pop, .push 7, .pop, .set_done, .pop]).2 → ok = false) ∧
    (∀ item, ((BoundedQueue.mk [1, 2] 5 true).run [QOp.pop, .push 7, .pop, .set_done, .pop]).1.push item
        = (((BoundedQueue.mk [1, 2] 5 true).run [QOp.pop, .push 7, .pop, .set_done, .pop]).1, some false)) ∧
    ((BoundedQueue.mk [1, 2] 5 true).run [QOp.pop, .push 7, .pop, .set_done, .pop]).1.set_done
        = ((BoundedQueue.mk [1, 2] 5 true).run [QOp.pop, .push 7, .pop, .set_done, .pop]).1 ∧
    delivered ((BoundedQueue.mk [1, 2] 5 true).run [QOp.pop, .push 7, .pop, .set_done, .pop]).2
        = [1, 2].take (popCalls [QOp.pop, .push 7, .pop, .set_done, .pop]) ∧
    ((BoundedQueue.mk [1, 2] 5 true).run [QOp.pop, .push 7, .pop, .set_done, .pop]).1.q_
        = [1, 2].drop (popCalls [QOp.pop, .push 7, .pop, .set_done, .pop]) ∧
    ([1, 2].length ≤ popCalls [QOp.pop, .push 7, .pop, .set_done, .pop] →
      ((BoundedQueue.mk [1, 2] 5 true).run [QOp.pop, .push 7, .pop, .set_done, .pop]).1.pop
        = (((BoundedQueue.mk [1, 2] 5 true).run [QOp.pop, .push 7, .pop, .set_done, .pop]).1, some none)) :=
  ⟨by decide, C4_closed_drain (T := Nat) [1, 2] 5 [.pop, .push 7, .pop, .set_done, .pop]⟩


/-! ## Templates: lemmas -/

section MaskLemmas

theorem range_map_getD (cs : List Char) :
    (List.range cs.length).map (fun i => cs.getD i ' ') = cs := by
  apply List.ext_getElem
  · simp
  · intro i h1 h2
    simp [List.getD, h2]

theorem mask_class_eq (c : Char) :
    mask_class c = (wildcard_class c).map fun cs => (cs, cs.length) := by
  unfold mask_class wildcard_class
  split_ifs <;> rfl

theorem estimate_mult_eq (c : Char) :
    estimate_mult c = (wildcard_class c).map fun cs => cs.length := by
  unfold estimate_mult wildcard_class
  split_ifs <;> rfl

theorem drop_eq_cons {mask : List Char} {p : Nat} {c : Char} {tl : List Char}
    (h : mask.drop p = c :: tl) :
    mask[p]? = some c ∧ p < mask.length ∧ mask.getD p ' ' = c ∧ mask.drop (p + 1) = tl := by
  have h1 : mask[p]? = some c := by
    have := List.getElem?_drop (L := mask) (i := p) (j := 0)
    rw [h] at this
    simpa using this.symm
  have h2 : p < mask.length := by
    by_contra hn
    rw [List.drop_eq_nil_of_le (by omega)] at h
    cases h
  refine ⟨h1, h2, ?_, ?_⟩
  · simp [List.getD, h1]
  · have := List.drop_drop 1 p mask
    rw [← this, h]
    rfl

theorem mask_children_wild {mask : List Char} {st : PState} {d : Char} {tl cs : List Char}
    (h : mask.drop st.pos = '?' :: d :: tl) (hc : wildcard_class d = some cs) :
    mask_children mask st = cs.map fun x => ⟨st.cur ++ [x], st.pos + 2⟩ := by
  obtain ⟨h1, _, _, h4⟩ := drop_eq_cons h
  obtain ⟨_, g2, g3, _⟩ := drop_eq_cons h4
  unfold mask_children
  rw [if_pos ⟨h1, g2⟩, g3, mask_class_eq, hc]
  simp only [Option.map_some']
  have hm := List.map_map (fun x => (⟨st.cur ++ [x], st.pos + 2⟩ : PState))
    (fun i => cs.getD i ' ') (List.range cs.length)
  rw [range_map_getD] at hm
  rw [hm]
  rfl

theorem mask_children_lit {mask : List Char} {st : PState} {c : Char} {tl : List Char}
    (h : mask.drop st.pos = c :: tl)
    (hl : c = '?' → ∀ d ∈ tl.head?, wildcard_class d = none) :
    mask_children mask st = [⟨st.cur ++ [c], st.pos + 1⟩] := by
  obtain ⟨h1, _, h3, h4⟩ := drop_eq_cons h
  unfold mask_children
  split_ifs with hq
  · obtain ⟨hq1, hq2⟩ := hq
    have hc : c = '?' := by
      rw [h1] at hq1
      exact Option.some.inj hq1
    cases tl with
    | nil =>
      have : mask.length ≤ st.pos + 1 := List.drop_eq_nil_iff.1 h4
      omega
    | cons d tl' =>
      obtain ⟨_, _, g3, _⟩ := drop_eq_cons h4
      have hn := hl hc d (by simp)
      rw [g3, mask_class_eq, hn, h3]
      rfl
  · rw [h3]

theorem spec_candidates_wild {d : Char} {tl cs : List Char} (hc : wildcard_class d = some cs) :
    spec_candidates ('?' :: d :: tl) = cs.flatMap fun x => (spec_candidates tl).map (x :: ·) := by
  simp [spec_candidates, hc]

theorem spec_candidates_lit {c : Char} {tl : List Char}
    (hl : c = '?' → ∀ d ∈ tl.head?, wildcard_class d = none) :
    spec_candidates (c :: tl) = (spec_candidates tl).map (c :: ·) := by
  cases tl with
  | nil => simp [spec_candidates]
  | cons d tl' =>
    by_cases hc : c = '?'
    · have hn := hl hc d (by simp)
      simp [spec_candidates, hc, hn]
    · simp [spec_candidates, hc]

theorem spec_count_wild {d : Char} {tl cs : List Char} (hc : wildcard_class d = some cs) :
    spec_count ('?' :: d :: tl) = cs.length * spec_count tl := by
  simp [spec_count, hc]

theorem spec_count_lit {c : Char} {tl : List Char}
    (hl : c = '?' → ∀ d ∈ tl.head?, wildcard_class d = none) :
    spec_count (c :: tl) = spec_count tl := by
  cases tl with
  | nil => simp [spec_count]
  | cons d tl' =>
    by_cases hc : c = '?'
    · have hn := hl hc d (by simp)
      simp [spec_count, hc, hn]
    · simp [spec_count, hc]

/-- A template suffix starts with a wildcard token or with a literal. -/
theorem token_cases (c : Char) (tl : List Char) :
    (∃ d tl' cs, c = '?' ∧ tl = d :: tl' ∧ wildcard_class d = some cs) ∨
      (c = '?' → ∀ d ∈ tl.head?, wildcard_class d = none) := by
  by_cases hc : c = '?'
  · cases tl with
    | nil => right; intro _ d hd; simp at hd
    | cons d tl' =>
      cases hw : wildcard_class d with
      | none =>
        right
        intro _ d' hd'
        simp at hd'
        subst hd'
        exact hw
      | some cs => left; exact ⟨d, tl', cs, hc, rfl, hw⟩
  · right
    intro h
    exact absurd h hc

theorem mask_loop_nil (mask : List Char) (found pushOk : Nat → Bool)
    (fuel k : Nat) (out : List (List Char)) (total : Nat) :
    mask_loop mask found pushOk (fuel + 1) k [] out total = some ⟨out, total, true⟩ := by
  simp [mask_loop]

/-- A level of states that are not complete is replaced, one state per
iteration, by the children of its states at the back of the queue. -/
theorem mask_loop_level_open (mask : List Char) (found pushOk : Nat → Bool)
    (hf : ∀ k, found k = false) (gen : List PState) :
    ∀ (rest : List PState) (fuel k : Nat) (out : List (List Char)) (total : Nat),
      (∀ st ∈ gen, st.pos < mask.length) →
      mask_loop mask found pushOk (fuel + gen.length) k (gen ++ rest) out total
        = mask_loop mask found pushOk fuel (k + gen.length)
            (rest ++ gen.flatMap (mask_children mask)) out total := by
  induction gen with
  | nil => intro rest fuel k out total _; simp
  | cons st gen ih =>
    intro rest fuel k out total hopen
    have hst : ¬ st.pos ≥ mask.length := by
      have := hopen st (by simp)
      omega
    have hrest : ∀ st' ∈ gen, st'.pos < mask.length := fun st' h => hopen st' (by simp [h])
    have e1 : fuel + (st :: gen).length = (fuel + gen.length) + 1 := by simp; omega
    rw [e1]
    simp only [List.cons_append, mask_loop, hf, hst, if_false, Bool.false_eq_true]
    rw [List.append_assoc, ih (rest ++ mask_children mask st) fuel (k + 1) out total hrest]
    have e2 : k + 1 + gen.length = k + (st :: gen).length := by simp; omega
    rw [e2]
    simp [List.append_assoc]

/-- A level of complete states is published, one state per iteration. -/
theorem mask_loop_level_done (mask : List Char) (found pushOk : Nat → Bool)
    (hf : ∀ k, found k = false) (hp : ∀ k, pushOk k = true) (gen : List PState) :
    ∀ (rest : List PState) (fuel k : Nat) (out : List (List Char)) (total : Nat),
      (∀ st ∈ gen, mask.length ≤ st.pos) → total < 2 ^ 64 →
      mask_loop mask found pushOk (fuel + gen.length) k (gen ++ rest) out total
        = mask_loop mask found pushOk fuel (k + gen.length) rest
            (out ++ gen.map (·.cur)) ((total + gen.length) % 2 ^ 64) := by
  induction gen with
  | nil =>
    intro rest fuel k out total _ ht
    simp only [List.nil_append, List.length_nil, Nat.add_zero, List.map_nil, List.append_nil,
      Nat.mod_eq_of_lt ht]
  | cons st gen ih =>
    intro rest fuel k out total hdone ht
    have hst : st.pos ≥ mask.length := hdone st (by simp)
    have hrest : ∀ st' ∈ gen, mask.length ≤ st'.pos := fun st' h => hdone st' (by simp [h])
    have e1 : fuel + (st :: gen).length = (fuel + gen.length) + 1 := by simp; omega
    rw [e1]
    simp only [List.cons_append, mask_loop, hf, hp, hst, if_true, if_false, Bool.false_eq_true]
    rw [ih rest fuel (k + 1) (out ++ [st.cur]) ((total + 1) % 2 ^ 64) hrest
      (Nat.mod_lt _ (by norm_num))]
    have e2 : k + 1 + gen.length = k + (st :: gen).length := by simp; omega
    have e3 : ((total + 1) % 2 ^ 64 + gen.length) % 2 ^ 64
        = (total + (st :: gen).length) % 2 ^ 64 := by
      simp only [List.length_cons]
      omega
    rw [e2, e3]
    simp [List.append_assoc]

theorem length_flatMap_map {α β γ : Type} (l : List α) (cs : List β) (g : α → β → γ) :
    (l.flatMap fun a => cs.map (g a)).length = l.length * cs.length := by
  induction l with
  | nil => simp
  | cons a l ih =>
    simp only [List.flatMap_cons, List.length_append, List.length_map, ih, List.length_cons]
    rw [Nat.add_mul, Nat.one_mul, Nat.add_comm]

/-- The whole loop, from a level of states that all stand at position `p`:
with enough fuel it publishes, for every state of the level in order, the
state's string extended by every instance of the rest of the template. -/
theorem mask_loop_levels (mask : List Char) (found pushOk : Nat → Bool)
    (hf : ∀ k, found k = false) (hp : ∀ k, pushOk k = true) (n : Nat) :
    ∀ (suffix : List Char) (p : Nat) (curs : List (List Char)) (k : Nat)
      (out : List (List Char)) (total : Nat),
      suffix.length ≤ n → mask.drop p = suffix → total < 2 ^ 64 →
      ∃ N, ∀ fuel, N ≤ fuel →
        mask_loop mask found pushOk fuel k (curs.map fun c => ⟨c, p⟩) out total
          = some ⟨out ++ curs.flatMap (fun cur => (spec_candidates suffix).map (cur ++ ·)),
              (total + curs.length * spec_count suffix) % 2 ^ 64, true⟩ := by
  induction n with
  | zero =>
    intro suffix p curs k out total hlen hdrop ht
    have hs : suffix = [] := List.length_eq_zero.1 (Nat.le_zero.1 hlen)
    subst hs
    have hp' : mask.length ≤ p := List.drop_eq_nil_iff.1 hdrop
    refine ⟨curs.length + 1, fun fuel hfuel => ?_⟩
    obtain ⟨f, rfl⟩ : ∃ f, fuel = (f + 1) + (curs.map fun c => (⟨c, p⟩ : PState)).length :=
      ⟨fuel - (curs.length + 1), by simp; omega⟩
    have h := mask_loop_level_done mask found pushOk hf hp (curs.map fun c => (⟨c, p⟩ : PState)) []
      (f + 1) k out total (by simp; intro _ _; exact hp') ht
    rw [List.append_nil] at h
    rw [h, mask_loop_nil]
    simp [spec_candidates, spec_count, Function.comp_def]
  | succ n ih =>
    intro suffix p curs k out total hlen hdrop ht
    cases suffix with
    | nil => exact ih [] p curs k out total (by simp) hdrop ht
    | cons c tl =>
      obtain ⟨_, hplt, _, hdrop1⟩ := drop_eq_cons hdrop
      have hopen : ∀ st ∈ curs.map (fun c => (⟨c, p⟩ : PState)), st.pos < mask.length := by
        intro st hst
        obtain ⟨_, _, rfl⟩ := List.mem_map.1 hst
        exact hplt
      rcases token_cases c tl with ⟨d, tl', cs, hc, htl, hw⟩ | hl
      · subst hc htl
        obtain ⟨_, _, _, hdrop2⟩ := drop_eq_cons hdrop1
        have hch : (curs.map fun c => (⟨c, p⟩ : PState)).flatMap (mask_children mask)
            = (curs.flatMap fun cur => cs.map fun x => cur ++ [x]).map fun c => ⟨c, p + 2⟩ := by
          rw [List.flatMap_map, List.map_flatMap]
          apply List.flatMap_congr
          intro cur _
          rw [@mask_children_wild mask ⟨cur, p⟩ d tl' cs hdrop hw, List.map_map]
          rfl
        obtain ⟨N, hN⟩ := ih tl' (p + 2) (curs.flatMap fun cur => cs.map fun x => cur ++ [x])
          (k + curs.length) out total (by simp at hlen; omega) hdrop2 ht
        refine ⟨N + curs.length, fun fuel hfuel => ?_⟩
        obtain ⟨f, hfN, rfl⟩ : ∃ f, N ≤ f ∧
            fuel = f + (curs.map fun c => (⟨c, p⟩ : PState)).length :=
          ⟨fuel - curs.length, by omega, by simp; omega⟩
        have h := mask_loop_level_open mask found pushOk hf (curs.map fun c => (⟨c, p⟩ : PState)) []
          f k out total hopen
        rw [List.append_nil, List.nil_append, hch, List.length_map] at h
        rw [List.length_map, h, hN f hfN, spec_candidates_wild hw, spec_count_wild hw, length_flatMap_map]
        simp [List.flatMap_assoc, List.flatMap_map, List.map_flatMap, Function.comp_def,
          Nat.mul_assoc]
      · have hch : (curs.map fun c => (⟨c, p⟩ : PState)).flatMap (mask_children mask)
            = (curs.map fun cur => cur ++ [c]).map fun c => ⟨c, p + 1⟩ := by
          rw [List.flatMap_map, List.map_map, List.map_eq_flatMap]
          apply List.flatMap_congr
          intro cur _
          rw [@mask_children_lit mask ⟨cur, p⟩ c tl hdrop hl]
          rfl
        obtain ⟨N, hN⟩ := ih tl (p + 1) (curs.map fun cur => cur ++ [c])
          (k + curs.length) out total (by simp at hlen; omega) hdrop1 ht
        refine ⟨N + curs.length, fun fuel hfuel => ?_⟩
        obtain ⟨f, hfN, rfl⟩ : ∃ f, N ≤ f ∧
            fuel = f + (curs.map fun c => (⟨c, p⟩ : PState)).length :=
          ⟨fuel - curs.length, by omega, by simp; omega⟩
        have h := mask_loop_level_open mask found pushOk hf (curs.map fun c => (⟨c, p⟩ : PState)) []
          f k out total hopen
        rw [List.append_nil, List.nil_append, hch, List.length_map] at h
        rw [List.length_map, h, hN f hfN, spec_candidates_lit hl, spec_count_lit hl]
        simp [List.flatMap_map, Function.comp_def]

/-- An uninterrupted `mask_producer` run, given enough fuel, publishes
`spec_candidates mask` in that order, adds their number to `total_passwords`
and closes the queue. -/
theorem mask_producer_run (mask : List Char) (found pushOk : Nat → Bool) (total0 : Nat)
    (hf : ∀ k, found k = false) (hp : ∀ k, pushOk k = true) (ht : total0 < 2 ^ 64) :
    ∃ N, ∀ fuel, N ≤ fuel →
      mask_producer mask found pushOk total0 fuel
        = some ⟨spec_candidates mask, (total0 + spec_count mask) % 2 ^ 64, true⟩ := by
  obtain ⟨N, hN⟩ := mask_loop_levels mask found pushOk hf hp mask.length mask 0 [[]] 0 [] total0
    (Nat.le_refl _) rfl ht
  refine ⟨N, fun fuel hfuel => ?_⟩
  have h := hN fuel hfuel
  simp only [List.map_cons, List.map_nil, List.flatMap_cons, List.flatMap_nil, List.nil_append,
    List.append_nil, List.length_cons, List.length_nil, Nat.zero_add, Nat.one_mul] at h
  unfold mask_producer
  rw [h]
  simp

/-- Induction over a template read left to right, token by token. -/
theorem template_induction {P : List Char → Prop} (hnil : P [])
    (hwild : ∀ d tl cs, wildcard_class d = some cs → P tl → P ('?' :: d :: tl))
    (hlit : ∀ c tl, (c = '?' → ∀ d ∈ tl.head?, wildcard_class d = none) → P tl → P (c :: tl)) :
    ∀ mask, P mask := by
  have key : ∀ n, ∀ mask : List Char, mask.length ≤ n → P mask := by
    intro n
    induction n with
    | zero =>
      intro mask h
      have : mask = [] := List.length_eq_zero.1 (Nat.le_zero.1 h)
      subst this
      exact hnil
    | succ n ih =>
      intro mask h
      cases mask with
      | nil => exact hnil
      | cons c tl =>
        rcases token_cases c tl with ⟨d, tl', cs, hc, htl, hw⟩ | hl
        · subst hc htl
          exact hwild d tl' cs hw (ih tl' (by simp at h; omega))
        · exact hlit c tl hl (ih tl (by simp at h; omega))
  intro mask
  exact key mask.length mask (Nat.le_refl _)

theorem wildcard_class_nodup {d : Char} {cs : List Char} (h : wildcard_class d = some cs) :
    cs.Nodup := by
  unfold wildcard_class at h
  split_ifs at h <;> (cases h; decide)

theorem length_spec_candidates (mask : List Char) :
    (spec_candidates mask).length = spec_count mask := by
  induction mask using template_induction with
  | hnil => rfl
  | hwild d tl cs hw ih =>
    rw [spec_candidates_wild hw, spec_count_wild hw, ← ih]
    exact length_flatMap_map cs (spec_candidates tl) fun x s => x :: s
  | hlit c tl hl ih =>
    rw [spec_candidates_lit hl, spec_count_lit hl, List.length_map, ih]

theorem mem_spec_candidates (mask : List Char) :
    ∀ s, s ∈ spec_candidates mask ↔ IsInstance mask s := by
  induction mask using template_induction with
  | hnil =>
    intro s
    constructor
    · intro h
      simp [spec_candidates] at h
      subst h
      exact IsInstance.nil
    · intro h
      cases h
      simp [spec_candidates]
  | hwild d tl cs hw ih =>
    intro s
    rw [spec_candidates_wild hw]
    constructor
    · intro h
      obtain ⟨x, hx, hs⟩ := List.mem_flatMap.1 h
      obtain ⟨t, ht, rfl⟩ := List.mem_map.1 hs
      exact IsInstance.wildcard hw hx ((ih t).1 ht)
    · intro h
      cases h with
      | wildcard hw' hx hrest =>
        rw [hw] at hw'
        cases hw'
        exact List.mem_flatMap.2 ⟨_, hx, List.mem_map.2 ⟨_, (ih _).2 hrest, rfl⟩⟩
      | literal hl hrest =>
        have := hl rfl d (by simp)
        rw [hw] at this
        cases this
  | hlit c tl hl ih =>
    intro s
    rw [spec_candidates_lit hl]
    constructor
    · intro h
      obtain ⟨t, ht, rfl⟩ := List.mem_map.1 h
      exact IsInstance.literal hl ((ih t).1 ht)
    · intro h
      cases h with
      | wildcard hw' hx hrest =>
        have := hl rfl _ (Option.mem_def.2 List.head?_cons)
        rw [hw'] at this
        cases this
      | literal _ hrest => exact List.mem_map.2 ⟨_, (ih _).2 hrest, rfl⟩

theorem nodup_spec_candidates (mask : List Char) : (spec_candidates mask).Nodup := by
  induction mask using template_induction with
  | hnil => simp [spec_candidates]
  | hwild d tl cs hw ih =>
    rw [spec_candidates_wild hw, List.nodup_flatMap]
    refine ⟨fun x _ => ih.map fun a b h => (List.cons.inj h).2, ?_⟩
    refine (wildcard_class_nodup hw).pairwise_of_forall_ne ?_
    intro a _ b _ hab
    simp only [Function.onFun]
    rw [List.disjoint_left]
    intro s hsa hsb
    obtain ⟨t, _, rfl⟩ := List.mem_map.1 hsa
    obtain ⟨t', _, h⟩ := List.mem_map.1 hsb
    exact hab (List.cons.inj h).1.symm
  | hlit c tl hl ih =>
    rw [spec_candidates_lit hl]
    exact ih.map fun a b h => (List.cons.inj h).2

/-- A template in which no `?` is followed by a class letter has itself as
its only instance. -/
theorem spec_candidates_no_wildcard (mask : List Char) :
    (∀ i d, mask[i]? = some '?' → mask[i + 1]? = some d → wildcard_class d = none) →
      spec_candidates mask = [mask] := by
  induction mask using template_induction with
  | hnil => intro _; rfl
  | hwild d tl cs hw _ =>
    intro h
    have := h 0 d rfl (by simp)
    rw [hw] at this
    cases this
  | hlit c tl hl ih =>
    intro h
    rw [spec_candidates_lit hl, ih fun i d h1 h2 => h (i + 1) d (by simpa using h1) (by simpa using h2)]
    rfl

/-- The bound `mask.size() - i` on the iterations of the loop of
`estimate_mask_size` is enough: more fuel does not change the result. -/
theorem estimate_loop_fuel (mask : List Char) (fuel : Nat) :
    ∀ (fuel' i total : Nat), mask.length - i ≤ fuel → mask.length - i ≤ fuel' →
      estimate_loop mask fuel i total = estimate_loop mask fuel' i total := by
  induction fuel with
  | zero =>
    intro fuel' i total h _
    cases fuel' with
    | zero => rfl
    | succ f =>
      have : ¬ i < mask.length := by omega
      simp [estimate_loop, this]
  | succ fuel ih =>
    intro fuel' i total h h'
    by_cases hi : i < mask.length
    · cases fuel' with
      | zero => omega
      | succ f =>
        simp only [estimate_loop, hi, if_true]
        split_ifs
        · cases estimate_mult (mask.getD (i + 1) ' ') with
          | none => exact ih f (i + 2) total (by omega) (by omega)
          | some mult =>
            show (match safe_multiply total mult with
              | none => SIZE_MAX
              | some nt => estimate_loop mask fuel (i + 2) nt)
              = (match safe_multiply total mult with
              | none => SIZE_MAX
              | some nt => estimate_loop mask f (i + 2) nt)
            cases safe_multiply total mult with
            | none => rfl
            | some nt => exact ih f (i + 2) nt (by omega) (by omega)
        · exact ih f (i + 1) total (by omega) (by omega)
    · cases fuel' with
      | zero => simp [estimate_loop, hi]
      | succ f => simp [estimate_loop, hi]

end MaskLemmas

/-! ## wordlist_producer: lemmas -/

section WordlistLemmas

theorem is_trailing_iff (c : Char) :
    is_trailing c = true ↔ (c = '\r' ∨ c = '\n' ∨ c = ' ') := by
  simp [is_trailing, or_assoc]

/-- The stripping loop removes a trailing run of CR, LF and space characters
and stops at the first character from the back that is none of them. -/
theorem strip_loop_spec (fuel : Nat) :
    ∀ line : List Char, line.length ≤ fuel →
      ∃ t, line = strip_loop fuel line ++ t ∧ (∀ c ∈ t, is_trailing c = true) ∧
        ∀ c, (strip_loop fuel line).getLast? = some c → is_trailing c = false := by
  induction fuel with
  | zero =>
    intro line h
    have : line = [] := List.length_eq_zero.1 (Nat.le_zero.1 h)
    subst this
    exact ⟨[], by simp [strip_loop]⟩
  | succ fuel ih =>
    intro line h
    cases hl : line.getLast? with
    | none =>
      have : line = [] := List.getLast?_eq_none_iff.1 hl
      subst this
      exact ⟨[], by simp [strip_loop]⟩
    | some c =>
      have hsplit : line.dropLast ++ [c] = line := List.dropLast_append_getLast? c hl
      by_cases hc : is_trailing c = true
      · have hlen : line.dropLast.length ≤ fuel := by
          rw [List.length_dropLast]
          omega
        obtain ⟨t, h1, h2, h3⟩ := ih line.dropLast hlen
        refine ⟨t ++ [c], ?_, ?_, ?_⟩
        · simp only [strip_loop, hl, hc, if_true]
          rw [← List.append_assoc, ← h1, hsplit]
        · intro x hx
          rcases List.mem_append.1 hx with hx | hx
          · exact h2 x hx
          · simp at hx
            subst hx
            exact hc
        · simpa only [strip_loop, hl, hc, if_true] using h3
      · refine ⟨[], ?_, by simp, ?_⟩
        · simp [strip_loop, hl, hc]
        · intro x hx
          simp only [strip_loop, hl, hc] at hx
          simp only [Bool.false_eq_true, if_false] at hx
          rw [hl] at hx
          cases hx
          simpa using hc

/-- An uninterrupted loop publishes the stripped non-empty lines in order and
counts them. -/
theorem wordlist_loop_eq (found pushOk : Nat → Bool)
    (hf : ∀ k, found k = false) (hp : ∀ k, pushOk k = true) (lines : List (List Char)) :
    ∀ (k : Nat) (out : List (List Char)) (total : Nat), total < 2 ^ 64 →
      wordlist_loop found pushOk k lines out total
        = ⟨out ++ (lines.map strip_trailing).filter (· ≠ []),
            (total + ((lines.map strip_trailing).filter (· ≠ [])).length) % 2 ^ 64, true⟩ := by
  induction lines with
  | nil =>
    intro k out total ht
    simp only [wordlist_loop, List.map_nil, List.filter_nil, List.append_nil, List.length_nil,
      Nat.add_zero, Nat.mod_eq_of_lt ht]
  | cons line rest ih =>
    intro k out total ht
    by_cases hne : strip_trailing line = []
    · simp only [wordlist_loop, hf, hne, List.map_cons]
      simp only [Bool.false_eq_true, if_false, ne_eq, not_true_eq_false]
      rw [ih (k + 1) out total ht]
      simp [List.filter_cons]
    · simp only [wordlist_loop, hf, hp, List.map_cons]
      simp only [Bool.false_eq_true, if_false, if_true, ne_eq, hne, not_false_eq_true]
      rw [ih (k + 1) (out ++ [strip_trailing line]) ((total + 1) % 2 ^ 64)
        (Nat.mod_lt _ (by norm_num))]
      have e : List.filter (fun x => decide (¬x = [])) (strip_trailing line :: List.map strip_trailing rest)
          = strip_trailing line :: List.filter (fun x => decide (¬x = [])) (List.map strip_trailing rest) := by
        simp [List.filter_cons, hne]
      simp only [ne_eq, e, List.length_cons, List.append_assoc, List.singleton_append]
      congr 1
      omega

end WordlistLemmas

/-! ## The producers: the claims -/

theorem wildcard_class_eq_none {d : Char} (h : d ∉ ['d', 'l', 'u', 's', 'a']) :
    wildcard_class d = none := by
  simp only [List.mem_cons, List.mem_singleton, List.not_mem_nil, or_false, not_or] at h
  obtain ⟨h1, h2, h3, h4, h5⟩ := h
  simp [wildcard_class, h1, h2, h3, h4, h5]

theorem wordlist_loop_closed (found pushOk : Nat → Bool) (lines : List (List Char)) :
    ∀ (k : Nat) (out : List (List Char)) (total : Nat),
      (wordlist_loop found pushOk k lines out total).closed = true := by
  induction lines with
  | nil => intro k out total; rfl
  | cons line rest ih =>
    intro k out total
    simp only [wordlist_loop]
    split_ifs <;> first | rfl | exact ih _ _ _

/-- C1: in a run where `password_found` stays false and every push returns
true, `mask_producer` with enough fuel returns, has closed the queue, and has
published a duplicate-free list whose members are exactly the instances of the
template (each wildcard token `?d`, `?l`, `?u`, `?s`, `?a` replaced by a member
of its class, every other character copied), namely `spec_candidates mask`;
the classes have 10, 26, 26, 30 and 62 members; and for `?d?d` the published
list is the 100 strings `00` to `99`. -/
theorem C1_mask_producer_publishes (mask : List Char) (found pushOk : Nat → Bool) (total0 : Nat)
    (hf : ∀ k, found k = false) (hp : ∀ k, pushOk k = true) (ht : total0 < 2 ^ 64) :
    (∃ N, ∀ fuel, N ≤ fuel → ∃ r, mask_producer mask found pushOk total0 fuel = some r ∧
        r.closed = true ∧ r.published.Nodup ∧ (∀ s, s ∈ r.published ↔ IsInstance mask s) ∧
        r.published = spec_candidates mask) ∧
    (DIGITS.length = 10 ∧ LOWERS.length = 26 ∧ UPPERS.length = 26 ∧ SPECIALS.length = 30 ∧
        ALPHANUM.length = 62) ∧
    (∃ N, ∀ fuel, N ≤ fuel → ∃ r, mask_producer "?d?d".toList found pushOk total0 fuel = some r ∧
        r.published = (List.range 100).map
          (fun n => [Nat.digitChar (n / 10), Nat.digitChar (n % 10)]) ∧
        r.published.length = 100 ∧ r.published.Nodup) := by
  refine ⟨?_, by decide, ?_⟩
  · obtain ⟨N, hN⟩ := mask_producer_run mask found pushOk total0 hf hp ht
    exact ⟨N, fun fuel hfuel => ⟨_, hN fuel hfuel, rfl, nodup_spec_candidates mask,
      mem_spec_candidates mask, rfl⟩⟩
  · obtain ⟨N, hN⟩ := mask_producer_run "?d?d".toList found pushOk total0 hf hp ht
    have hlist : spec_candidates "?d?d".toList = (List.range 100).map
        (fun n => [Nat.digitChar (n / 10), Nat.digitChar (n % 10)]) := by decide
    have hlen : (spec_candidates "?d?d".toList).length = 100 := by
      rw [length_spec_candidates]
      decide
    exact ⟨N, fun fuel hfuel => ⟨_, hN fuel hfuel, hlist, hlen, nodup_spec_candidates _⟩⟩

theorem C1_mask_producer_publishes_witness :
    (∀ k, never_found k = false) ∧ (∀ k, always_pushed k = true) ∧ 0 < 2 ^ 64 ∧
    ((∃ N, ∀ fuel, N ≤ fuel → ∃ r,
        mask_producer "x?u??s".toList never_found always_pushed 0 fuel = some r ∧
        r.closed = true ∧ r.published.Nodup ∧
        (∀ s, s ∈ r.published ↔ IsInstance "x?u??s".toList s) ∧
        r.published = spec_candidates "x?u??s".toList) ∧
    (DIGITS.length = 10 ∧ LOWERS.length = 26 ∧ UPPERS.length = 26 ∧ SPECIALS.length = 30 ∧
        ALPHANUM.length = 62) ∧
    (∃ N, ∀ fuel, N ≤ fuel → ∃ r,
        mask_producer "?d?d".toList never_found always_pushed 0 fuel = some r ∧
        r.published = (List.range 100).map
          (fun n => [Nat.digitChar (n / 10), Nat.digitChar (n % 10)]) ∧
        r.published.length = 100 ∧ r.published.Nodup)) :=
  ⟨fun _ => rfl, fun _ => rfl, by norm_num,
    C1_mask_producer_publishes "x?u??s".toList never_found always_pushed 0
      (fun _ => rfl) (fun _ => rfl) (by norm_num)⟩

/-- C7: in a run over the lines `getline` returns where `password_found` stays
false and every push returns true, `wordlist_producer` publishes, in input
order, the stripped forms of the lines whose stripped form is not empty, and
nothing else; `total_passwords` (0 on entry) ends as their number (as a 64-bit
value); the queue is closed on exit, as on every exit of `wordlist_producer`,
interrupted or not, file opened or not; and the stripped form of a line is the line without a trailing run of CR, LF and
space characters that is maximal (what is left does not end in one of them). -/
theorem C7_wordlist_producer_publishes (lines : List (List Char)) (found pushOk : Nat → Bool)
    (hf : ∀ k, found k = false) (hp : ∀ k, pushOk k = true) :
    (wordlist_producer (some lines) found pushOk 0).published
        = (lines.map strip_trailing).filter (· ≠ []) ∧
    (wordlist_producer (some lines) found pushOk 0).total_passwords
        = (wordlist_producer (some lines) found pushOk 0).published.length % 2 ^ 64 ∧
    ((wordlist_producer (some lines) found pushOk 0).published.length < 2 ^ 64 →
      (wordlist_producer (some lines) found pushOk 0).total_passwords
        = (wordlist_producer (some lines) found pushOk 0).published.length) ∧
    (wordlist_producer (some lines) found pushOk 0).closed = true ∧
    (∀ (file : Option (List (List Char))) (found' pushOk' : Nat → Bool) (total0 : Nat),
      (wordlist_producer file found' pushOk' total0).closed = true) ∧
    (∀ line : List Char, ∃ t, line = strip_trailing line ++ t ∧
      (∀ c ∈ t, c = '\r' ∨ c = '\n' ∨ c = ' ') ∧
      ∀ c, (strip_trailing line).getLast? = some c → ¬ (c = '\r' ∨ c = '\n' ∨ c = ' ')) := by
  have h := wordlist_loop_eq found pushOk hf hp lines 0 [] 0 (by norm_num)
  simp only [List.nil_append, Nat.zero_add] at h
  have hr : wordlist_producer (some lines) found pushOk 0
      = ⟨(lines.map strip_trailing).filter (· ≠ []),
          ((lines.map strip_trailing).filter (· ≠ [])).length % 2 ^ 64, true⟩ := h
  rw [hr]
  refine ⟨rfl, rfl, fun hlt => Nat.mod_eq_of_lt hlt, rfl, ?_, ?_⟩
  · intro file found' pushOk' total0
    cases file with
    | none => rfl
    | some ls => exact wordlist_loop_closed found' pushOk' ls 0 [] total0
  intro line
  obtain ⟨t, h1, h2, h3⟩ := strip_loop_spec line.length line (Nat.le_refl _)
  refine ⟨t, h1, fun c hc => (is_trailing_iff c).1 (h2 c hc), fun c hc hn => ?_⟩
  have := h3 c hc
  rw [(is_trailing_iff c).2 hn] at this
  cases this

theorem C7_wordlist_producer_publishes_witness :
    (∀ k, never_found k = false) ∧ (∀ k, always_pushed k = true) ∧
    (wordlist_producer (some ["wrong1\r".toList, " ".toList, "se cret  ".toList]) never_found always_pushed 0).published.length < 2 ^ 64 ∧
    ((wordlist_producer (some ["wrong1\r".toList, " ".toList, "se cret  ".toList]) never_found always_pushed 0).published
        = (["wrong1\r".toList, " ".toList, "se cret  ".toList].map strip_trailing).filter (· ≠ []) ∧
    (wordlist_producer (some ["wrong1\r".toList, " ".toList, "se cret  ".toList]) never_found always_pushed 0).total_passwords
        = (wordlist_producer (some ["wrong1\r".toList, " ".toList, "se cret  ".toList]) never_found always_pushed 0).published.length % 2 ^ 64 ∧
    ((wordlist_producer (some ["wrong1\r".toList, " ".toList, "se cret  ".toList]) never_found always_pushed 0).published.length < 2 ^ 64 →
      (wordlist_producer (some ["wrong1\r".toList, " ".toList, "se cret  ".toList]) never_found always_pushed 0).total_passwords
        = (wordlist_producer (some ["wrong1\r".toList, " ".toList, "se cret  ".toList]) never_found always_pushed 0).published.length) ∧
    (wordlist_producer (some ["wrong1\r".toList, " ".toList, "se cret  ".toList]) never_found always_pushed 0).closed = true ∧
    (∀ (file : Option (List (List Char))) (found' pushOk' : Nat → Bool) (total0 : Nat),
      (wordlist_producer file found' pushOk' total0).closed = true) ∧
    (∀ line : List Char, ∃ t, line = strip_trailing line ++ t ∧
      (∀ c ∈ t, c = '\r' ∨ c = '\n' ∨ c = ' ') ∧
      ∀ c, (strip_trailing line).getLast? = some c → ¬ (c = '\r' ∨ c = '\n' ∨ c = ' '))) :=
  ⟨fun _ => rfl, fun _ => rfl, by decide,
    C7_wordlist_producer_publishes ["wrong1\r".toList, " ".toList, "se cret  ".toList]
      never_found always_pushed (fun _ => rfl) (fun _ => rfl)⟩

/-- C8 fails on the code: for the template `??d` `estimate_mask_size` returns
1 (no overflow), while an uninterrupted `mask_producer` run publishes the 10
candidates `?0` to `?9`. -/
theorem C8_estimate_differs_from_published :
    estimate_mask_size "??d".toList = 1 ∧ estimate_mask_size "??d".toList ≠ SIZE_MAX ∧
    spec_count "??d".toList = 10 ∧
    mask_producer "??d".toList never_found always_pushed 0 13
      = some ⟨["?0".toList, "?1".toList, "?2".toList, "?3".toList, "?4".toList, "?5".toList,
          "?6".toList, "?7".toList, "?8".toList, "?9".toList], 10, true⟩ := by
  decide

/-- C9 fails on the code: the template `??d?d?d?d?d?d?d?d` passes the
pre-start check of `main` with an estimate of 10,000,000, while an
uninterrupted `mask_producer` run publishes 100,000,000 candidates, more than
`MAX_MASK_SIZE`. -/
theorem C9_oversized_template_accepted :
    mask_accepted "??d?d?d?d?d?d?d?d".toList = true ∧
    estimate_mask_size "??d?d?d?d?d?d?d?d".toList = 10000000 ∧
    (∃ N, ∀ fuel, N ≤ fuel → ∃ r,
      mask_producer "??d?d?d?d?d?d?d?d".toList never_found always_pushed 0 fuel = some r ∧
      r.published.length = 100000000 ∧ MAX_MASK_SIZE < r.published.length) := by
  refine ⟨by decide, by decide, ?_⟩
  obtain ⟨N, hN⟩ := mask_producer_run "??d?d?d?d?d?d?d?d".toList never_found always_pushed 0
    (fun _ => rfl) (fun _ => rfl) (by norm_num)
  refine ⟨N, fun fuel hfuel => ⟨_, hN fuel hfuel, ?_⟩⟩
  simp only [length_spec_candidates]
  decide

/-- C10: for a template in which no `?` is immediately followed by one of
d, l, u, s, a (a `?` followed by another character or ending the template
included), an uninterrupted `mask_producer` run with enough fuel publishes
exactly one candidate, the template itself; for `a?zb` it publishes `a?zb`. -/
theorem C10_literal_fallback (mask : List Char) (found pushOk : Nat → Bool) (total0 : Nat)
    (hf : ∀ k, found k = false) (hp : ∀ k, pushOk k = true) (ht : total0 < 2 ^ 64)
    (hno : ∀ i, i < mask.length → mask[i]? = some '?' →
      ∀ d ∈ mask[i + 1]?, d ∉ ['d', 'l', 'u', 's', 'a']) :
    (∃ N, ∀ fuel, N ≤ fuel → ∃ r, mask_producer mask found pushOk total0 fuel = some r ∧
        r.published = [mask]) ∧
    (∃ N, ∀ fuel, N ≤ fuel → ∃ r, mask_producer "a?zb".toList found pushOk total0 fuel = some r ∧
        r.published = ["a?zb".toList]) := by
  have key : ∀ m : List Char,
      (∀ i, i < m.length → m[i]? = some '?' → ∀ d ∈ m[i + 1]?, d ∉ ['d', 'l', 'u', 's', 'a']) →
      ∃ N, ∀ fuel, N ≤ fuel → ∃ r, mask_producer m found pushOk total0 fuel = some r ∧
        r.published = [m] := by
    intro m hm
    obtain ⟨N, hN⟩ := mask_producer_run m found pushOk total0 hf hp ht
    refine ⟨N, fun fuel hfuel => ⟨_, hN fuel hfuel, ?_⟩⟩
    refine spec_candidates_no_wildcard m fun i d h1 h2 => wildcard_class_eq_none ?_
    have hi : i < m.length := by
      by_contra hn
      rw [List.getElem?_eq_none (by omega)] at h1
      cases h1
    exact hm i hi h1 d (Option.mem_def.2 h2)
  exact ⟨key mask hno, key "a?zb".toList (by decide)⟩

theorem C10_literal_fallback_witness :
    (∀ k, never_found k = false) ∧ (∀ k, always_pushed k = true) ∧ 0 < 2 ^ 64 ∧
    (∀ i, i < "?x??".toList.length → "?x??".toList[i]? = some '?' →
      ∀ d ∈ "?x??".toList[i + 1]?, d ∉ ['d', 'l', 'u', 's', 'a']) ∧
    ((∃ N, ∀ fuel, N ≤ fuel → ∃ r,
        mask_producer "?x??".toList never_found always_pushed 0 fuel = some r ∧
        r.published = ["?x??".toList]) ∧
    (∃ N, ∀ fuel, N ≤ fuel → ∃ r,
        mask_producer "a?zb".toList never_found always_pushed 0 fuel = some r ∧
        r.published = ["a?zb".toList])) :=
  ⟨fun _ => rfl, fun _ => rfl, by norm_num, by decide,
    C10_literal_fallback "?x??".toList never_found always_pushed 0
      (fun _ => rfl) (fun _ => rfl) (by norm_num) (by decide)⟩

/-! ## The run: lemmas on the producer's local state -/

section SourceLemmas

theorem tree_size_wild {d : Char} {tl cs : List Char} (hc : wildcard_class d = some cs) :
    tree_size ('?' :: d :: tl) = 1 + cs.length * tree_size tl := by
  simp [tree_size, hc]

theorem tree_size_lit {c : Char} {tl : List Char}
    (hl : c = '?' → ∀ d ∈ tl.head?, wildcard_class d = none) :
    tree_size (c :: tl) = 1 + tree_size tl := by
  cases tl with
  | nil => simp [tree_size]
  | cons d tl' =>
    by_cases hc : c = '?'
    · have hn := hl hc d (by simp)
      simp [tree_size, hc, hn]
    · simp [tree_size, hc]

theorem exists_drop_cons {t : List Char} {p : Nat} (h : p < t.length) :
    ∃ c tl, t.drop p = c :: tl :=
  ⟨t[p], t.drop (p + 1), List.drop_eq_getElem_cons h⟩

/-- The children of a BFS state cover exactly the candidates of the state. -/
theorem children_candidates (t : List Char) (st : PState) (h : st.pos < t.length) :
    (mask_children t st).flatMap (fun st' => (spec_candidates (t.drop st'.pos)).map (st'.cur ++ ·))
      = (spec_candidates (t.drop st.pos)).map (st.cur ++ ·) := by
  obtain ⟨c, tl, hdrop⟩ := exists_drop_cons h
  obtain ⟨_, _, _, hdrop1⟩ := drop_eq_cons hdrop
  rcases token_cases c tl with ⟨d, tl', cs, hc, htl, hw⟩ | hl
  · subst hc htl
    obtain ⟨_, _, _, hdrop2⟩ := drop_eq_cons hdrop1
    rw [mask_children_wild hdrop hw, hdrop, spec_candidates_wild hw]
    simp [List.flatMap_map, List.map_flatMap, Function.comp_def, hdrop2]
  · rw [mask_children_lit hdrop hl, hdrop, spec_candidates_lit hl]
    simp [hdrop1, Function.comp_def]

/-- The children of a BFS state stand for one iteration less than the state. -/
theorem children_size (t : List Char) (st : PState) (h : st.pos < t.length) :
    ((mask_children t st).map fun st' => tree_size (t.drop st'.pos)).sum + 1
      = tree_size (t.drop st.pos) := by
  obtain ⟨c, tl, hdrop⟩ := exists_drop_cons h
  obtain ⟨_, _, _, hdrop1⟩ := drop_eq_cons hdrop
  rcases token_cases c tl with ⟨d, tl', cs, hc, htl, hw⟩ | hl
  · subst hc htl
    obtain ⟨_, _, _, hdrop2⟩ := drop_eq_cons hdrop1
    rw [mask_children_wild hdrop hw, hdrop, tree_size_wild hw]
    simp [Function.comp_def, hdrop2, Nat.add_comm]
  · rw [mask_children_lit hdrop hl, hdrop, tree_size_lit hl]
    simp [hdrop1, Nat.add_comm]

theorem Source.next_none {src : Source} (h : src.next = none) : src.candidates = [] := by
  cases src with
  | wordlist lines =>
    cases lines with
    | nil => rfl
    | cons line rest =>
      simp only [Source.next] at h
      split_ifs at h
  | mask t gen =>
    cases gen with
    | nil => rfl
    | cons st rest =>
      simp only [Source.next] at h
      split_ifs at h

theorem Source.next_skip {src src' : Source} (h : src.next = some (none, src')) :
    src'.candidates.Perm src.candidates ∧ src'.size < src.size := by
  cases src with
  | wordlist lines =>
    cases lines with
    | nil => simp [Source.next] at h
    | cons line rest =>
      simp only [Source.next] at h
      split_ifs at h with hne
      · simp at h
      · simp only [Option.some.injEq, Prod.mk.injEq, true_and] at h
        subst h
        have hne' : strip_trailing line = [] := by simpa using hne
        simp [Source.candidates, Source.size, List.filter_cons, hne']
  | mask t gen =>
    cases gen with
    | nil => simp [Source.next] at h
    | cons st rest =>
      simp only [Source.next] at h
      split_ifs at h with hpos
      · simp at h
      · simp only [Option.some.injEq, Prod.mk.injEq, true_and] at h
        subst h
        have hlt : st.pos < t.length := by omega
        constructor
        · simp only [Source.candidates, List.flatMap_append, List.flatMap_cons]
          rw [children_candidates t st hlt]
          exact List.perm_append_comm
        · simp only [Source.size, List.map_append, List.sum_append, List.map_cons, List.sum_cons]
          have := children_size t st hlt
          omega

theorem Source.next_item {src src' : Source} {c : List Char}
    (h : src.next = some (some c, src')) :
    src.candidates = c :: src'.candidates ∧ src'.size < src.size := by
  cases src with
  | wordlist lines =>
    cases lines with
    | nil => simp [Source.next] at h
    | cons line rest =>
      simp only [Source.next] at h
      split_ifs at h with hne
      · simp only [Option.some.injEq, Prod.mk.injEq] at h
        obtain ⟨hc, hsrc⟩ := h
        subst hsrc hc
        simp [Source.candidates, Source.size, List.filter_cons, hne]
      · simp at h
  | mask t gen =>
    cases gen with
    | nil => simp [Source.next] at h
    | cons st rest =>
      simp only [Source.next] at h
      split_ifs at h with hpos
      · simp only [Option.some.injEq, Prod.mk.injEq] at h
        obtain ⟨hc, hsrc⟩ := h
        subst hsrc hc
        have hd : t.drop st.pos = [] := List.drop_eq_nil_of_le hpos
        simp [Source.candidates, Source.size, hd, spec_candidates, tree_size]
      · simp at h

theorem candidates_template (t : List Char) :
    (Source.mask t [⟨[], 0⟩]).candidates = spec_candidates t := by
  simp [Source.candidates]

end SourceLemmas

/-! ## The run: steps -/

section StepLemmas

theorem push_cases {T : Type} (q : BoundedQueue T) (c : T) :
    (q.push c = (q, none) ∧ ¬ q.q_.length < q.cap_ ∧ q.done_ = false) ∨
    (q.push c = (q, some false) ∧ q.done_ = true) ∨
    (q.push c = ({ q with q_ := q.q_ ++ [c] }, some true) ∧ q.q_.length < q.cap_ ∧
      q.done_ = false) := by
  obtain ⟨l, cap, done⟩ := q
  cases done
  · by_cases h : l.length < cap
    · right; right
      simp [BoundedQueue.push, h]
    · left
      simp [BoundedQueue.push, h]
  · right; left
    simp [BoundedQueue.push]

theorem pop_cases {T : Type} (q : BoundedQueue T) :
    (q.pop = (q, none) ∧ q.q_ = [] ∧ q.done_ = false) ∨
    (q.pop = (q, some none) ∧ q.q_ = [] ∧ q.done_ = true) ∨
    (∃ x rest, q.q_ = x :: rest ∧ q.pop = ({ q with q_ := rest }, some (some x))) := by
  obtain ⟨l, cap, done⟩ := q
  cases l with
  | nil =>
    cases done
    · left; simp [BoundedQueue.pop]
    · right; left; simp [BoundedQueue.pop]
  | cons x rest =>
    right; right
    exact ⟨x, rest, rfl, by simp [BoundedQueue.pop]⟩

/-- Every step of `step` is one of the rules of `Step`. -/
theorem step_sound (oracle : List Char → Bool) (s s' : Sys) (t : Tid)
    (h : step oracle s t = some s') : Step oracle s s' := by
  cases t with
  | producer =>
    simp only [step, producer_step] at h
    cases hp : s.producer with
    | loop src =>
      rw [hp] at h
      simp only at h
      cases hn : src.next with
      | none =>
        rw [hn] at h
        simp only [Option.some.injEq] at h
        subst h
        exact Step.prod_exit hp hn
      | some r =>
        obtain ⟨item, src'⟩ := r
        rw [hn] at h
        simp only at h
        cases hf : s.password_found with
        | true =>
          rw [if_pos hf] at h
          simp only [Option.some.injEq] at h
          subst h
          exact Step.prod_stop hp hn hf
        | false =>
          rw [if_neg (by simp [hf])] at h
          cases item with
          | none =>
            simp only [Option.some.injEq] at h
            subst h
            exact Step.prod_skip hp hn hf
          | some c =>
            simp only [Option.some.injEq] at h
            subst h
            exact Step.prod_item hp hn hf
    | pushing c src =>
      rw [hp] at h
      simp only at h
      rcases push_cases s.queue c with ⟨he, _, _⟩ | ⟨he, hd⟩ | ⟨he, hlt, hd⟩
      · rw [he] at h
        simp at h
      · rw [he] at h
        simp only [Option.some.injEq] at h
        subst h
        exact Step.prod_push_closed hp hd
      · rw [he] at h
        simp only [Option.some.injEq] at h
        subst h
        exact Step.prod_push hp hlt hd
    | closing =>
      rw [hp] at h
      simp only [Option.some.injEq] at h
      subst h
      exact Step.prod_close hp
    | finished =>
      rw [hp] at h
      simp at h
  | worker i =>
    simp only [step, worker_step] at h
    cases hw : s.workers[i]? with
    | none =>
      rw [hw] at h
      simp at h
    | some w =>
      rw [hw] at h
      cases w with
      | loop =>
        simp only at h
        cases hf : s.password_found with
        | true =>
          rw [if_pos hf] at h
          simp only [Option.some.injEq] at h
          subst h
          exact Step.w_stop hw hf
        | false =>
          rw [if_neg (by simp [hf])] at h
          simp only [Option.some.injEq] at h
          subst h
          exact Step.w_go hw hf
      | popping =>
        simp only at h
        rcases pop_cases s.queue with ⟨he, _, _⟩ | ⟨he, hq, hd⟩ | ⟨x, rest, hq, he⟩
        · rw [he] at h
          simp at h
        · rw [he] at h
          simp only [Option.some.injEq] at h
          subst h
          exact Step.w_drained hw hq hd
        · rw [he] at h
          simp only [Option.some.injEq] at h
          subst h
          exact Step.w_pop hw hq
      | testing pwd =>
        simp only [Option.some.injEq] at h
        subst h
        cases ho : oracle pwd with
        | true => simpa [ho] using @Step.w_accept oracle s i pwd hw ho
        | false => simpa [ho] using @Step.w_reject oracle s i pwd hw ho
      | claiming pwd =>
        simp only at h
        cases hf : s.password_found with
        | true =>
          rw [if_neg (by simp [hf])] at h
          simp only [Option.some.injEq] at h
          subst h
          exact Step.w_lose hw hf
        | false =>
          rw [if_pos (by simp [hf])] at h
          simp only [Option.some.injEq] at h
          subst h
          exact Step.w_claim hw hf
      | exited => simp at h

theorem sum_map_set {α : Type} (f : α → Nat) (ws : List α) :
    ∀ (i : Nat) (w w' : α), ws[i]? = some w →
      ((ws.set i w').map f).sum + f w = (ws.map f).sum + f w' := by
  induction ws with
  | nil => intro i w w' h; simp at h
  | cons a ws ih =>
    intro i w w' h
    cases i with
    | zero =>
      simp only [List.getElem?_cons_zero, Option.some.injEq] at h
      subst h
      simp only [List.set_cons_zero, List.map_cons, List.sum_cons]
      omega
    | succ i =>
      simp only [List.getElem?_cons_succ] at h
      have := ih i w w' h
      simp only [List.set_cons_succ, List.map_cons, List.sum_cons]
      omega

theorem flatMap_set_perm {α β : Type} (f : α → List β) (ws : List α) :
    ∀ (i : Nat) (w w' : α), ws[i]? = some w →
      ((ws.set i w').flatMap f ++ f w).Perm (ws.flatMap f ++ f w') := by
  induction ws with
  | nil => intro i w w' h; simp at h
  | cons a ws ih =>
    intro i w w' h
    cases i with
    | zero =>
      simp only [List.getElem?_cons_zero, Option.some.injEq] at h
      subst h
      simp only [List.set_cons_zero, List.flatMap_cons]
      have h1 : ((f w' ++ ws.flatMap f) ++ f a).Perm (f w' ++ (f a ++ ws.flatMap f)) := by
        rw [List.append_assoc]
        exact List.Perm.append_left _ List.perm_append_comm
      exact h1.trans List.perm_append_comm
    | succ i =>
      simp only [List.getElem?_cons_succ] at h
      have := ih i w w' h
      simp only [List.set_cons_succ, List.flatMap_cons, List.append_assoc]
      exact List.Perm.append_left _ this

theorem mem_set_self {α : Type} {ws : List α} {i : Nat} {w : α} (w' : α)
    (h : ws[i]? = some w) : w' ∈ ws.set i w' := by
  have hi : i < ws.length := by
    by_contra hn
    rw [List.getElem?_eq_none (by omega)] at h
    cases h
  exact List.mem_iff_getElem?.2 ⟨i, by simp [List.getElem?_set_self hi]⟩

theorem mem_set_of_ne {α : Type} {ws : List α} {i : Nat} {w x : α} (w' : α)
    (h : ws[i]? = some w) (hx : x ∈ ws) (hne : x ≠ w) : x ∈ ws.set i w' := by
  obtain ⟨j, hj⟩ := List.mem_iff_getElem?.1 hx
  have hij : i ≠ j := by
    intro e
    subst e
    rw [h] at hj
    exact hne (Option.some.inj hj).symm
  exact List.mem_iff_getElem?.2 ⟨j, by rw [List.getElem?_set_ne hij]; exact hj⟩

theorem mem_of_getElem? {α : Type} {ws : List α} {i : Nat} {w : α} (h : ws[i]? = some w) :
    w ∈ ws :=
  List.mem_iff_getElem?.2 ⟨i, h⟩

/-- Every step uses up some of the budget. -/
theorem Step.budget_lt {oracle : List Char → Bool} {s s' : Sys} (h : Step oracle s s') :
    s'.budget < s.budget := by
  cases h with
  | prod_exit hp hn => simp only [Sys.budget, hp, ProducerPc.weight]; omega
  | prod_stop hp hn hf => simp only [Sys.budget, hp, ProducerPc.weight]; omega
  | prod_skip hp hn hf =>
    have := (Source.next_skip hn).2
    simp only [Sys.budget, hp, ProducerPc.weight]; omega
  | prod_item hp hn hf =>
    have := (Source.next_item hn).2
    simp only [Sys.budget, hp, ProducerPc.weight]; omega
  | prod_push hp hlt hd =>
    simp only [Sys.budget, hp, ProducerPc.weight, List.length_append, List.length_singleton]
    omega
  | prod_push_closed hp hd => simp only [Sys.budget, hp, ProducerPc.weight]; omega
  | prod_close hp =>
    simp only [Sys.budget, hp, ProducerPc.weight, BoundedQueue.set_done]; omega
  | w_stop hw hf =>
    have := sum_map_set WorkerPc.weight s.workers _ _ WorkerPc.exited hw
    simp only [WorkerPc.weight] at this
    simp only [Sys.budget]; omega
  | w_go hw hf =>
    have := sum_map_set WorkerPc.weight s.workers _ _ WorkerPc.popping hw
    simp only [WorkerPc.weight] at this
    simp only [Sys.budget]; omega
  | w_pop hw hq =>
    rename_i i x rest
    have := sum_map_set WorkerPc.weight s.workers _ _ (WorkerPc.testing x) hw
    simp only [WorkerPc.weight] at this
    simp only [Sys.budget, hq, List.length_cons]; omega
  | w_drained hw hq hd =>
    have := sum_map_set WorkerPc.weight s.workers _ _ WorkerPc.exited hw
    simp only [WorkerPc.weight] at this
    simp only [Sys.budget]; omega
  | w_reject hw ho =>
    have := sum_map_set WorkerPc.weight s.workers _ _ WorkerPc.loop hw
    simp only [WorkerPc.weight] at this
    simp only [Sys.budget]; omega
  | w_accept hw ho =>
    rename_i i pwd
    have := sum_map_set WorkerPc.weight s.workers _ _ (WorkerPc.claiming pwd) hw
    simp only [WorkerPc.weight] at this
    simp only [Sys.budget]; omega
  | w_claim hw hf =>
    have := sum_map_set WorkerPc.weight s.workers _ _ WorkerPc.exited hw
    simp only [WorkerPc.weight] at this
    simp only [Sys.budget, BoundedQueue.set_done]; omega
  | w_lose hw hf =>
    have := sum_map_set WorkerPc.weight s.workers _ _ WorkerPc.exited hw
    simp only [WorkerPc.weight] at this
    simp only [Sys.budget]; omega

/-- A run takes at most as many steps as the budget of its first state. -/
theorem steps_taken_le (oracle : List Char → Bool) (sched : List Tid) :
    ∀ s : Sys, steps_taken oracle s sched ≤ s.budget := by
  induction sched with
  | nil => intro s; simp [steps_taken]
  | cons t ts ih =>
    intro s
    simp only [steps_taken]
    cases h : step oracle s t with
    | none => exact ih s
    | some s' =>
      have h1 := (step_sound oracle s s' t h).budget_lt
      have h2 := ih s'
      simp only
      omega

/-- Every state has a schedule that runs it to a state where no thread can
take a step. -/
theorem exists_complete_run (oracle : List Char → Bool) :
    ∀ (n : Nat) (s : Sys), s.budget ≤ n →
      ∃ sched, ∀ t, step oracle (exec oracle s sched) t = none := by
  intro n
  induction n with
  | zero =>
    intro s hs
    refine ⟨[], fun t => ?_⟩
    cases h : step oracle s t with
    | none => simpa only [exec] using h
    | some s' =>
      have := (step_sound oracle s s' t h).budget_lt
      omega
  | succ n ih =>
    intro s hs
    by_cases hq : ∀ t, step oracle s t = none
    · exact ⟨[], hq⟩
    · obtain ⟨t, ht⟩ := not_forall.1 hq
      cases h : step oracle s t with
      | none => exact absurd h ht
      | some s' =>
        have := (step_sound oracle s s' t h).budget_lt
        obtain ⟨sched, hsched⟩ := ih s' (by omega)
        refine ⟨t :: sched, ?_⟩
        simpa only [exec, h] using hsched

theorem producer_blocked {oracle : List Char → Bool} {s : Sys}
    (h : step oracle s .producer = none) :
    s.producer = .finished ∨
      (∃ c src, s.producer = .pushing c src ∧ ¬ s.queue.q_.length < s.queue.cap_ ∧
        s.queue.done_ = false) := by
  simp only [step, producer_step] at h
  cases hp : s.producer with
  | loop src =>
    rw [hp] at h
    simp only at h
    cases hn : src.next with
    | none => rw [hn] at h; simp at h
    | some r =>
      obtain ⟨item, src'⟩ := r
      rw [hn] at h
      simp only at h
      split_ifs at h
      cases item <;> simp at h
  | pushing c src =>
    rw [hp] at h
    simp only at h
    rcases push_cases s.queue c with ⟨_, hlt, hd⟩ | ⟨he, _⟩ | ⟨he, _, _⟩
    · exact Or.inr ⟨c, src, rfl, hlt, hd⟩
    · rw [he] at h; simp at h
    · rw [he] at h; simp at h
  | closing => rw [hp] at h; simp at h
  | finished => exact Or.inl rfl

theorem worker_blocked {oracle : List Char → Bool} {s : Sys} {i : Nat} {w : WorkerPc}
    (h : step oracle s (.worker i) = none) (hw : s.workers[i]? = some w) :
    w = .exited ∨ (w = .popping ∧ s.queue.q_ = [] ∧ s.queue.done_ = false) := by
  simp only [step, worker_step, hw] at h
  cases w with
  | loop =>
    simp only at h
    split_ifs at h
  | popping =>
    simp only at h
    rcases pop_cases s.queue with ⟨_, hq, hd⟩ | ⟨he, _, _⟩ | ⟨x, rest, _, he⟩
    · exact Or.inr ⟨rfl, hq, hd⟩
    · rw [he] at h; simp at h
    · rw [he] at h; simp at h
  | testing pwd => simp at h
  | claiming pwd =>
    simp only at h
    split_ifs at h
  | exited => exact Or.inl rfl

theorem quiescent_of_all_exited (oracle : List Char → Bool) {s : Sys}
    (hp : s.producer = .finished) (hw : ∀ w ∈ s.workers, w = .exited) :
    ∀ t, step oracle s t = none := by
  intro t
  cases t with
  | producer => simp [step, producer_step, hp]
  | worker i =>
    simp only [step, worker_step]
    cases h : s.workers[i]? with
    | none => rfl
    | some w =>
      rw [hw w (mem_of_getElem? h)]

end StepLemmas

/-! ## The run: the invariant -/

section InvLemmas

theorem held_replicate_loop (n : Nat) :
    (List.replicate n WorkerPc.loop).flatMap WorkerPc.held = [] := by
  induction n with
  | zero => rfl
  | succ n ih => simp [List.replicate_succ, WorkerPc.held, ih]

theorem inv_init (oracle : List Char → Bool) (src : Source) (n total0 : Nat) :
    Inv oracle src.candidates (Sys.init src n total0) where
  cap := rfl
  offered := fun _ => by simp [Sys.init, ProducerPc.todo]
  todo_mem := fun c hc => by simpa [Sys.init, ProducerPc.todo] using hc
  moved := by simp [Sys.init, held_replicate_loop, BoundedQueue.new]
  accepted := fun c hc => by simp [Sys.init] at hc
  claiming := fun c hc => by
    simp only [Sys.init] at hc
    cases (List.eq_of_mem_replicate hc)
  exited := fun hc => by
    simp only [Sys.init] at hc
    cases (List.eq_of_mem_replicate hc)
  found_done := fun h => by simp [Sys.init] at h
  finished_done := fun h => by simp [Sys.init] at h
  done_cause := fun h => by simp [Sys.init, BoundedQueue.new] at h
  winner_none := fun _ => rfl
  winner_one := fun h => by simp [Sys.init] at h
  attempts := by simp [Sys.init]

theorem held_of_getElem? {ws : List WorkerPc} {i : Nat} {pwd : List Char}
    (h : ws[i]? = some (.testing pwd)) : pwd ∈ ws.flatMap WorkerPc.held :=
  List.mem_flatMap.2 ⟨_, mem_of_getElem? h, by simp [WorkerPc.held]⟩

theorem cnt_nil (a : List Char) : cnt a [] = 0 := rfl

theorem cnt_append (a : List Char) (l₁ l₂ : List (List Char)) :
    cnt a (l₁ ++ l₂) = cnt a l₁ + cnt a l₂ := by
  simp [cnt, List.count_append]

theorem cnt_cons (a b : List Char) (l : List (List Char)) :
    cnt a (b :: l) = cnt a l + if b = a then 1 else 0 := by
  simp [cnt, List.count_cons]

theorem perm_iff_cnt {l₁ l₂ : List (List Char)} :
    l₁.Perm l₂ ↔ ∀ a, cnt a l₁ = cnt a l₂ := by
  simp only [cnt]
  exact List.perm_iff_count

/-- The multiset of held candidates after one worker has moved. -/
theorem held_set_cnt {ws : List WorkerPc} {i : Nat} {w : WorkerPc} (w' : WorkerPc)
    (h : ws[i]? = some w) (a : List Char) :
    cnt a ((ws.set i w').flatMap WorkerPc.held) + cnt a w.held
      = cnt a (ws.flatMap WorkerPc.held) + cnt a w'.held := by
  have := perm_iff_cnt.1 (flatMap_set_perm WorkerPc.held ws i w w' h) a
  simpa [cnt_append] using this

theorem claiming_of_set {ws : List WorkerPc} {i : Nat} {w' : WorkerPc} {P : List Char → Prop}
    (hold : ∀ c, WorkerPc.claiming c ∈ ws → P c) (hnew : ∀ c, w' = WorkerPc.claiming c → P c) :
    ∀ c, WorkerPc.claiming c ∈ ws.set i w' → P c := by
  intro c hc
  rcases List.mem_or_eq_of_mem_set hc with h | h
  · exact hold c h
  · exact hnew c h.symm

theorem exited_of_set {ws : List WorkerPc} {i : Nat} {w' : WorkerPc}
    (hne : w' ≠ WorkerPc.exited) (h : WorkerPc.exited ∈ ws.set i w') : WorkerPc.exited ∈ ws := by
  rcases List.mem_or_eq_of_mem_set h with h | h
  · exact h
  · exact absurd h.symm hne

/-- Every step keeps the invariant. -/
theorem inv_step {oracle : List Char → Bool} {cands : List (List Char)} {s s' : Sys}
    (hinv : Inv oracle cands s) (h : Step oracle s s') : Inv oracle cands s' := by
  cases h with
  | prod_exit hp hn =>
    have ht : s.producer.todo = [] := by rw [hp]; exact Source.next_none hn
    exact
      { cap := hinv.cap
        offered := fun hf => by
          have := hinv.offered hf
          rw [ht] at this
          exact this
        todo_mem := fun c hc => hinv.todo_mem c (by rw [ht]; exact hc)
        moved := hinv.moved
        accepted := hinv.accepted
        claiming := hinv.claiming
        exited := hinv.exited
        found_done := hinv.found_done
        finished_done := fun h => by simp at h
        done_cause := fun hd => (hinv.done_cause hd).elim Or.inl
          (fun hfin => by rw [hp] at hfin; cases hfin)
        winner_none := hinv.winner_none
        winner_one := hinv.winner_one
        attempts := hinv.attempts }
  | prod_stop hp hn hf =>
    exact
      { cap := hinv.cap
        offered := fun hf' => by simp [hf] at hf'
        todo_mem := fun c hc => hinv.todo_mem c (by
          simp only [ProducerPc.todo, List.append_nil] at hc
          exact List.mem_append_left _ hc)
        moved := hinv.moved
        accepted := hinv.accepted
        claiming := hinv.claiming
        exited := hinv.exited
        found_done := hinv.found_done
        finished_done := fun h => by simp at h
        done_cause := fun _ => Or.inl hf
        winner_none := hinv.winner_none
        winner_one := hinv.winner_one
        attempts := hinv.attempts }
  | prod_skip hp hn hf =>
    rename_i src src'
    have hperm := (Source.next_skip hn).1
    have ht : s.producer.todo = src.candidates := by rw [hp]; rfl
    exact
      { cap := hinv.cap
        offered := fun hf' => by
          have := hinv.offered hf'
          rw [ht] at this
          exact (List.Perm.append_left _ hperm).trans this
        todo_mem := fun c hc => hinv.todo_mem c (by
          rw [ht]
          rcases List.mem_append.1 hc with hc | hc
          · exact List.mem_append_left _ hc
          · exact List.mem_append_right _ (hperm.mem_iff.1 hc))
        moved := hinv.moved
        accepted := hinv.accepted
        claiming := hinv.claiming
        exited := hinv.exited
        found_done := hinv.found_done
        finished_done := fun h => by simp at h
        done_cause := fun hd => (hinv.done_cause hd).elim Or.inl
          (fun hfin => by rw [hp] at hfin; cases hfin)
        winner_none := hinv.winner_none
        winner_one := hinv.winner_one
        attempts := hinv.attempts }
  | prod_item hp hn hf =>
    rename_i src src' c
    have heq := (Source.next_item hn).1
    have ht : s.producer.todo = c :: src'.candidates := by rw [hp, ← heq]; rfl
    exact
      { cap := hinv.cap
        offered := fun hf' => by
          have := hinv.offered hf'
          rw [ht] at this
          exact this
        todo_mem := fun c' hc => hinv.todo_mem c' (by rw [ht]; exact hc)
        moved := hinv.moved
        accepted := hinv.accepted
        claiming := hinv.claiming
        exited := hinv.exited
        found_done := hinv.found_done
        finished_done := fun h => by simp at h
        done_cause := fun hd => (hinv.done_cause hd).elim Or.inl
          (fun hfin => by rw [hp] at hfin; cases hfin)
        winner_none := hinv.winner_none
        winner_one := hinv.winner_one
        attempts := hinv.attempts }
  | prod_push hp hlt hd =>
    rename_i src c
    have ht : s.producer.todo = c :: src.candidates := by rw [hp]; rfl
    exact
      { cap := hinv.cap
        offered := fun hf' => by
          have := hinv.offered hf'
          rw [ht] at this
          simpa [ProducerPc.todo] using this
        todo_mem := fun c' hc => hinv.todo_mem c' (by
          rw [ht]
          simpa [ProducerPc.todo] using hc)
        moved := by
          have := hinv.moved
          rw [perm_iff_cnt] at this ⊢
          intro a
          have := this a
          simp only [cnt_append, cnt_cons, cnt_nil] at this ⊢
          omega
        accepted := hinv.accepted
        claiming := hinv.claiming
        exited := fun he => (hinv.exited he).elim Or.inl
          (fun hq => by rw [hq.2] at hd; cases hd)
        found_done := fun hf' => by rw [hinv.found_done hf'] at hd; cases hd
        finished_done := fun h => by simp at h
        done_cause := fun hd' => by
          simp only at hd'
          rw [hd] at hd'
          cases hd'
        winner_none := hinv.winner_none
        winner_one := hinv.winner_one
        attempts := hinv.attempts }
  | prod_push_closed hp hd =>
    have hfound : s.password_found = true :=
      (hinv.done_cause hd).elim id (fun hfin => by rw [hp] at hfin; cases hfin)
    exact
      { cap := hinv.cap
        offered := fun hf' => by simp [hfound] at hf'
        todo_mem := fun c hc => hinv.todo_mem c (by
          simp only [ProducerPc.todo, List.append_nil] at hc
          exact List.mem_append_left _ hc)
        moved := hinv.moved
        accepted := hinv.accepted
        claiming := hinv.claiming
        exited := hinv.exited
        found_done := hinv.found_done
        finished_done := fun h => by simp at h
        done_cause := fun _ => Or.inl hfound
        winner_none := hinv.winner_none
        winner_one := hinv.winner_one
        attempts := hinv.attempts }
  | prod_close hp =>
    have ht : s.producer.todo = [] := by rw [hp]; rfl
    exact
      { cap := hinv.cap
        offered := fun hf => by
          have := hinv.offered hf
          rw [ht] at this
          exact this
        todo_mem := fun c hc => hinv.todo_mem c (by rw [ht]; exact hc)
        moved := hinv.moved
        accepted := hinv.accepted
        claiming := hinv.claiming
        exited := fun he => (hinv.exited he).elim Or.inl (fun hq => Or.inr ⟨hq.1, rfl⟩)
        found_done := fun _ => rfl
        finished_done := fun _ => rfl
        done_cause := fun _ => Or.inr rfl
        winner_none := hinv.winner_none
        winner_one := hinv.winner_one
        attempts := hinv.attempts }
  | w_stop hw hf =>
    exact
      { cap := hinv.cap
        offered := hinv.offered
        todo_mem := hinv.todo_mem
        moved := by
          have := hinv.moved
          rw [perm_iff_cnt] at this ⊢
          intro a
          have h1 := this a
          have h2 := held_set_cnt WorkerPc.exited hw a
          simp only [cnt_append, cnt_cons, cnt_nil, WorkerPc.held] at h1 h2 ⊢
          omega
        accepted := fun _ _ _ => Or.inl hf
        claiming := claiming_of_set hinv.claiming (fun c h => by cases h)
        exited := fun _ => Or.inl hf
        found_done := hinv.found_done
        finished_done := hinv.finished_done
        done_cause := hinv.done_cause
        winner_none := hinv.winner_none
        winner_one := hinv.winner_one
        attempts := hinv.attempts }
  | w_go hw hf =>
    exact
      { cap := hinv.cap
        offered := hinv.offered
        todo_mem := hinv.todo_mem
        moved := by
          have := hinv.moved
          rw [perm_iff_cnt] at this ⊢
          intro a
          have h1 := this a
          have h2 := held_set_cnt WorkerPc.popping hw a
          simp only [cnt_append, cnt_cons, cnt_nil, WorkerPc.held] at h1 h2 ⊢
          omega
        accepted := fun c hc ho => (hinv.accepted c hc ho).imp id
          (fun hm => mem_set_of_ne _ hw hm (by simp))
        claiming := claiming_of_set hinv.claiming (fun c h => by cases h)
        exited := fun he => hinv.exited (exited_of_set (by simp) he)
        found_done := hinv.found_done
        finished_done := hinv.finished_done
        done_cause := hinv.done_cause
        winner_none := hinv.winner_none
        winner_one := hinv.winner_one
        attempts := hinv.attempts }
  | w_pop hw hq =>
    rename_i i x rest
    exact
      { cap := hinv.cap
        offered := hinv.offered
        todo_mem := hinv.todo_mem
        moved := by
          have := hinv.moved
          rw [hq, perm_iff_cnt] at this
          rw [perm_iff_cnt]
          intro a
          have h1 := this a
          have h2 := held_set_cnt (WorkerPc.testing x) hw a
          simp only [cnt_append, cnt_cons, cnt_nil, WorkerPc.held] at h1 h2 ⊢
          omega
        accepted := fun c hc ho => (hinv.accepted c hc ho).imp id
          (fun hm => mem_set_of_ne _ hw hm (by simp))
        claiming := claiming_of_set hinv.claiming (fun c h => by cases h)
        exited := fun he => (hinv.exited (exited_of_set (by simp) he)).elim Or.inl
          (fun hq' => by rw [hq] at hq'; cases hq'.1)
        found_done := hinv.found_done
        finished_done := hinv.finished_done
        done_cause := hinv.done_cause
        winner_none := hinv.winner_none
        winner_one := hinv.winner_one
        attempts := hinv.attempts }
  | w_drained hw hq hd =>
    exact
      { cap := hinv.cap
        offered := hinv.offered
        todo_mem := hinv.todo_mem
        moved := by
          have := hinv.moved
          rw [perm_iff_cnt] at this ⊢
          intro a
          have h1 := this a
          have h2 := held_set_cnt WorkerPc.exited hw a
          simp only [cnt_append, cnt_cons, cnt_nil, WorkerPc.held] at h1 h2 ⊢
          omega
        accepted := fun c hc ho => (hinv.accepted c hc ho).imp id
          (fun hm => mem_set_of_ne _ hw hm (by simp))
        claiming := claiming_of_set hinv.claiming (fun c h => by cases h)
        exited := fun _ => Or.inr ⟨hq, hd⟩
        found_done := hinv.found_done
        finished_done := hinv.finished_done
        done_cause := hinv.done_cause
        winner_none := hinv.winner_none
        winner_one := hinv.winner_one
        attempts := hinv.attempts }
  | w_reject hw ho =>
    rename_i i pwd
    exact
      { cap := hinv.cap
        offered := hinv.offered
        todo_mem := hinv.todo_mem
        moved := by
          have := hinv.moved
          rw [perm_iff_cnt] at this ⊢
          intro a
          have h1 := this a
          have h2 := held_set_cnt WorkerPc.loop hw a
          simp only [List.map_append, List.map_cons, List.map_nil, cnt_append, cnt_cons, cnt_nil,
            WorkerPc.held] at h1 h2 ⊢
          omega
        accepted := fun c hc ho' => by
          simp only [List.map_append, List.map_cons, List.map_nil, List.mem_append,
            List.mem_singleton] at hc
          rcases hc with hc | hc
          · exact (hinv.accepted c hc ho').imp id (fun hm => mem_set_of_ne _ hw hm (by simp))
          · subst hc
            rw [ho] at ho'
            cases ho'
        claiming := claiming_of_set hinv.claiming (fun c h => by cases h)
        exited := fun he => hinv.exited (exited_of_set (by simp) he)
        found_done := hinv.found_done
        finished_done := hinv.finished_done
        done_cause := hinv.done_cause
        winner_none := hinv.winner_none
        winner_one := hinv.winner_one
        attempts := by
          have := hinv.attempts
          simp only [List.length_append, List.length_singleton]
          omega }
  | w_accept hw ho =>
    rename_i i pwd
    have hcand : pwd ∈ cands := by
      have h1 : pwd ∈ s.pushed :=
        hinv.moved.mem_iff.1
          (List.mem_append_left _ (List.mem_append_right _ (held_of_getElem? hw)))
      exact hinv.todo_mem pwd (List.mem_append_left _ h1)
    exact
      { cap := hinv.cap
        offered := hinv.offered
        todo_mem := hinv.todo_mem
        moved := by
          have := hinv.moved
          rw [perm_iff_cnt] at this ⊢
          intro a
          have h1 := this a
          have h2 := held_set_cnt (WorkerPc.claiming pwd) hw a
          simp only [List.map_append, List.map_cons, List.map_nil, cnt_append, cnt_cons, cnt_nil,
            WorkerPc.held] at h1 h2 ⊢
          omega
        accepted := fun c hc ho' => by
          simp only [List.map_append, List.map_cons, List.map_nil, List.mem_append,
            List.mem_singleton] at hc
          rcases hc with hc | hc
          · exact (hinv.accepted c hc ho').imp id (fun hm => mem_set_of_ne _ hw hm (by simp))
          · subst hc
            exact Or.inr (mem_set_self _ hw)
        claiming := claiming_of_set hinv.claiming (fun c h => by
          cases h
          exact ⟨ho, hcand⟩)
        exited := fun he => hinv.exited (exited_of_set (by simp) he)
        found_done := hinv.found_done
        finished_done := hinv.finished_done
        done_cause := hinv.done_cause
        winner_none := hinv.winner_none
        winner_one := hinv.winner_one
        attempts := by
          have := hinv.attempts
          simp only [List.length_append, List.length_singleton]
          omega }
  | w_claim hw hf =>
    rename_i i pwd
    exact
      { cap := hinv.cap
        offered := fun h => by simp at h
        todo_mem := hinv.todo_mem
        moved := by
          have := hinv.moved
          rw [perm_iff_cnt] at this ⊢
          intro a
          have h1 := this a
          have h2 := held_set_cnt WorkerPc.exited hw a
          simp only [cnt_append, cnt_cons, cnt_nil, WorkerPc.held, BoundedQueue.set_done]
            at h1 h2 ⊢
          omega
        accepted := fun _ _ _ => Or.inl rfl
        claiming := claiming_of_set hinv.claiming (fun c h => by cases h)
        exited := fun _ => Or.inl rfl
        found_done := fun _ => rfl
        finished_done := fun _ => rfl
        done_cause := fun _ => Or.inl rfl
        winner_none := fun h => by simp at h
        winner_one := fun _ =>
          ⟨pwd, by simp [hinv.winner_none hf], rfl,
            (hinv.claiming pwd (mem_of_getElem? hw)).1,
            (hinv.claiming pwd (mem_of_getElem? hw)).2⟩
        attempts := hinv.attempts }
  | w_lose hw hf =>
    exact
      { cap := hinv.cap
        offered := hinv.offered
        todo_mem := hinv.todo_mem
        moved := by
          have := hinv.moved
          rw [perm_iff_cnt] at this ⊢
          intro a
          have h1 := this a
          have h2 := held_set_cnt WorkerPc.exited hw a
          simp only [cnt_append, cnt_cons, cnt_nil, WorkerPc.held] at h1 h2 ⊢
          omega
        accepted := fun _ _ _ => Or.inl hf
        claiming := claiming_of_set hinv.claiming (fun c h => by cases h)
        exited := fun _ => Or.inl hf
        found_done := hinv.found_done
        finished_done := hinv.finished_done
        done_cause := hinv.done_cause
        winner_none := hinv.winner_none
        winner_one := hinv.winner_one
        attempts := hinv.attempts }

theorem inv_exec {oracle : List Char → Bool} {cands : List (List Char)} (sched : List Tid) :
    ∀ {s : Sys}, Inv oracle cands s → Inv oracle cands (exec oracle s sched) := by
  induction sched with
  | nil => intro s hinv; exact hinv
  | cons t ts ih =>
    intro s hinv
    simp only [exec]
    cases h : step oracle s t with
    | none => exact ih hinv
    | some s' => exact ih (inv_step hinv (step_sound oracle s s' t h))

theorem Step.workers_length {oracle : List Char → Bool} {s s' : Sys} (h : Step oracle s s') :
    s'.workers.length = s.workers.length := by
  cases h <;> simp

theorem exec_workers_length (oracle : List Char → Bool) (sched : List Tid) :
    ∀ s : Sys, (exec oracle s sched).workers.length = s.workers.length := by
  induction sched with
  | nil => intro s; rfl
  | cons t ts ih =>
    intro s
    simp only [exec]
    cases h : step oracle s t with
    | none => exact ih s
    | some s' =>
      simp only
      rw [ih s', (step_sound oracle s s' t h).workers_length]

theorem init_budget (src : Source) (n total0 : Nat) :
    (Sys.init src n total0).budget = 5 * src.size + 2 + 2 * n := by
  have : ((List.replicate n WorkerPc.loop).map WorkerPc.weight).sum = 2 * n := by
    induction n with
    | zero => rfl
    | succ n ih => simp [List.replicate_succ, WorkerPc.weight, ih]; omega
  simp only [Sys.budget, Sys.init, ProducerPc.weight, BoundedQueue.new, this, List.length_nil]

theorem held_all_exited {ws : List WorkerPc} (h : ∀ w ∈ ws, w = WorkerPc.exited) :
    ws.flatMap WorkerPc.held = [] := by
  rw [List.flatMap_eq_nil_iff]
  intro w hw
  rw [h w hw]
  rfl

/-- In a state of a run with at least one worker where no thread can take a
step, the producer has returned, every worker has returned, and the queue is
empty unless the password was found. -/
theorem quiescent_final {oracle : List Char → Bool} {cands : List (List Char)} {s : Sys}
    (hinv : Inv oracle cands s) (hne : s.workers ≠ [])
    (hq : ∀ t, step oracle s t = none) :
    s.producer = .finished ∧ (∀ w ∈ s.workers, w = .exited) ∧
      (s.password_found = false → s.queue.q_ = []) := by
  have hall : ∀ w ∈ s.workers, w = .exited := by
    intro w hw
    obtain ⟨i, hi⟩ := List.mem_iff_getElem?.1 hw
    rcases worker_blocked (hq (.worker i)) hi with h | ⟨_, hqe, hd⟩
    · exact h
    · exfalso
      rcases producer_blocked (hq .producer) with hfin | ⟨c, src, _, hfull, _⟩
      · rw [hinv.finished_done hfin] at hd
        cases hd
      · apply hfull
        rw [hqe, hinv.cap]
        decide
  obtain ⟨w, hw⟩ := List.exists_mem_of_ne_nil _ hne
  have hex : WorkerPc.exited ∈ s.workers := by
    rw [← hall w hw]
    exact hw
  refine ⟨?_, hall, ?_⟩
  · rcases producer_blocked (hq .producer) with hfin | ⟨c, src, _, _, hd⟩
    · exact hfin
    · exfalso
      rcases hinv.exited hex with hf | ⟨_, hd'⟩
      · rw [hinv.found_done hf] at hd
        cases hd
      · rw [hd'] at hd
        cases hd
  · intro hf
    rcases hinv.exited hex with hf' | ⟨hqe, _⟩
    · rw [hf] at hf'
      cases hf'
    · exact hqe

/-- What was pushed and what was tested when a run with at least one worker
has come to rest without a password found. -/
theorem quiescent_exhausted {oracle : List Char → Bool} {cands : List (List Char)} {s : Sys}
    (hinv : Inv oracle cands s) (hne : s.workers ≠ [])
    (hq : ∀ t, step oracle s t = none) (hf : s.password_found = false) :
    s.pushed.Perm cands ∧ (s.tested.map Prod.snd).Perm s.pushed := by
  obtain ⟨hfin, hall, hempty⟩ := quiescent_final hinv hne hq
  constructor
  · have := hinv.offered hf
    rw [hfin] at this
    simpa [ProducerPc.todo] using this
  · have := hinv.moved
    rw [held_all_exited hall, hempty hf] at this
    simpa using this

end InvLemmas

/-! ## The run: the claims -/

/-- C5: take a run of the producer and n successfully initialised workers
(n at least 1, so also n at least 2) over a candidate space in which s0 is the
one string the oracle accepts. In every state of every interleaving,
`correct_password` has been assigned never or once, and then the value s0,
exactly when `password_found` is set. The run takes at most
5 * size + 2 + 2 * n steps. In every state where no thread can take a step,
all threads have returned, `password_found` is true, `correct_password` is s0
and it was assigned exactly once. Such a state is reached by some schedule. -/
theorem C5_single_winner (oracle : List Char → Bool) (src : Source) (n total0 : Nat)
    (s0 : List Char) (sched : List Tid) (hn : 1 ≤ n)
    (hs0 : s0 ∈ src.candidates) (hacc : oracle s0 = true)
    (huniq : ∀ c ∈ src.candidates, oracle c = true → c = s0) :
    ((exec oracle (Sys.init src n total0) sched).assigned = [] ∨
      (exec oracle (Sys.init src n total0) sched).assigned = [s0]) ∧
    ((exec oracle (Sys.init src n total0) sched).password_found = true ↔
      (exec oracle (Sys.init src n total0) sched).assigned = [s0]) ∧
    ((exec oracle (Sys.init src n total0) sched).password_found = true →
      (exec oracle (Sys.init src n total0) sched).correct_password = s0) ∧
    steps_taken oracle (Sys.init src n total0) sched ≤ 5 * src.size + 2 + 2 * n ∧
    ((∀ t, step oracle (exec oracle (Sys.init src n total0) sched) t = none) →
      (exec oracle (Sys.init src n total0) sched).producer = .finished ∧
      (∀ w ∈ (exec oracle (Sys.init src n total0) sched).workers, w = .exited) ∧
      (exec oracle (Sys.init src n total0) sched).password_found = true ∧
      (exec oracle (Sys.init src n total0) sched).correct_password = s0 ∧
      (exec oracle (Sys.init src n total0) sched).assigned = [s0]) ∧
    (∃ sched', ∀ t, step oracle (exec oracle (Sys.init src n total0) sched') t = none) := by
  have hinv : Inv oracle src.candidates (exec oracle (Sys.init src n total0) sched) :=
    inv_exec sched (inv_init oracle src n total0)
  have hne : (exec oracle (Sys.init src n total0) sched).workers ≠ [] := by
    intro h
    have := exec_workers_length oracle sched (Sys.init src n total0)
    rw [h] at this
    simp [Sys.init] at this
    omega
  generalize exec oracle (Sys.init src n total0) sched = st at hinv hne ⊢
  have hone : st.password_found = true →
      st.assigned = [s0] ∧ st.correct_password = s0 := by
    intro hf
    obtain ⟨c, h1, h2, h3, h4⟩ := hinv.winner_one hf
    have := huniq c h4 h3
    subst this
    exact ⟨h1, h2⟩
  refine ⟨?_, ⟨fun hf => (hone hf).1, fun ha => ?_⟩, fun hf => (hone hf).2, ?_, ?_, ?_⟩
  · cases hf : st.password_found with
    | false => exact Or.inl (hinv.winner_none hf)
    | true => exact Or.inr (hone hf).1
  · cases hf : st.password_found with
    | false =>
      rw [hinv.winner_none hf] at ha
      cases ha
    | true => rfl
  · have := steps_taken_le oracle sched (Sys.init src n total0)
    rw [init_budget] at this
    exact this
  · intro hq
    obtain ⟨hfin, hall, _⟩ := quiescent_final hinv hne hq
    have hfound : st.password_found = true := by
      cases hf : st.password_found with
      | true => rfl
      | false =>
        exfalso
        obtain ⟨h1, h2⟩ := quiescent_exhausted hinv hne hq hf
        have hmem : s0 ∈ st.tested.map Prod.snd := h2.mem_iff.2 (h1.mem_iff.2 hs0)
        rcases hinv.accepted s0 hmem hacc with h | h
        · rw [hf] at h
          cases h
        · cases hall _ h
    exact ⟨hfin, hall, hfound, (hone hfound).2, (hone hfound).1⟩
  · exact exists_complete_run oracle _ _ (Nat.le_refl _)

theorem C5_single_winner_witness :
    1 ≤ 2 ∧ "secret".toList ∈ demo_dictionary.candidates ∧
    secret_oracle "secret".toList = true ∧
    (∀ c ∈ demo_dictionary.candidates, secret_oracle c = true → c = "secret".toList) ∧
    (∀ t, step secret_oracle (exec secret_oracle (Sys.init demo_dictionary 2 0) demo_schedule) t
      = none) ∧
    (((exec secret_oracle (Sys.init demo_dictionary 2 0) demo_schedule).assigned = [] ∨
      (exec secret_oracle (Sys.init demo_dictionary 2 0) demo_schedule).assigned
        = ["secret".toList]) ∧
    ((exec secret_oracle (Sys.init demo_dictionary 2 0) demo_schedule).password_found = true ↔
      (exec secret_oracle (Sys.init demo_dictionary 2 0) demo_schedule).assigned
        = ["secret".toList]) ∧
    ((exec secret_oracle (Sys.init demo_dictionary 2 0) demo_schedule).password_found = true →
      (exec secret_oracle (Sys.init demo_dictionary 2 0) demo_schedule).correct_password
        = "secret".toList) ∧
    steps_taken secret_oracle (Sys.init demo_dictionary 2 0) demo_schedule
      ≤ 5 * demo_dictionary.size + 2 + 2 * 2 ∧
    ((∀ t, step secret_oracle (exec secret_oracle (Sys.init demo_dictionary 2 0) demo_schedule) t
        = none) →
      (exec secret_oracle (Sys.init demo_dictionary 2 0) demo_schedule).producer = .finished ∧
      (∀ w ∈ (exec secret_oracle (Sys.init demo_dictionary 2 0) demo_schedule).workers,
        w = .exited) ∧
      (exec secret_oracle (Sys.init demo_dictionary 2 0) demo_schedule).password_found = true ∧
      (exec secret_oracle (Sys.init demo_dictionary 2 0) demo_schedule).correct_password
        = "secret".toList ∧
      (exec secret_oracle (Sys.init demo_dictionary 2 0) demo_schedule).assigned
        = ["secret".toList]) ∧
    (∃ sched', ∀ t, step secret_oracle (exec secret_oracle (Sys.init demo_dictionary 2 0) sched') t
      = none)) :=
  ⟨by decide, by decide, by decide, by decide,
    quiescent_of_all_exited secret_oracle (by decide) (by decide),
    C5_single_winner secret_oracle demo_dictionary 2 0 "secret".toList demo_schedule
      (by decide) (by decide) (by decide) (by decide)⟩

/-- The end-to-end scenario of the specification under a round-robin schedule:
the dictionary wrong1, wrong2, secret, wrong3, an oracle that accepts only
secret, two workers. The run ends with the password found, at most four
attempts, all threads returned. -/
theorem end_to_end_scenario :
    (exec secret_oracle (Sys.init demo_dictionary 2 0) demo_schedule).password_found = true ∧
    (exec secret_oracle (Sys.init demo_dictionary 2 0) demo_schedule).correct_password
      = "secret".toList ∧
    (exec secret_oracle (Sys.init demo_dictionary 2 0) demo_schedule).attempts_made ≤ 4 ∧
    (exec secret_oracle (Sys.init demo_dictionary 2 0) demo_schedule).producer = .finished ∧
    (exec secret_oracle (Sys.init demo_dictionary 2 0) demo_schedule).workers
      = [.exited, .exited] := by
  decide

/-- C6: take a run of `wordlist_producer` and n successfully initialised
workers (n at least 1) over a dictionary whose lines yield K candidates, all
rejected by the oracle. In every state of every interleaving `password_found`
is false. The run takes at most 5 * (number of lines) + 2 + 2 * n steps. In
every state where no thread can take a step, all threads have returned,
`password_found` is false, the candidates pushed are the K candidates of the
dictionary, the candidates tested are the candidates pushed, each as often as
it was pushed, and `attempts_made` is K (as a 64-bit value). Such a state
is reached by some schedule. -/
theorem C6_exhaustion (oracle : List Char → Bool) (lines : List (List Char)) (n : Nat)
    (sched : List Tid) (hn : 1 ≤ n)
    (hrej : ∀ c ∈ (lines.map strip_trailing).filter (· ≠ []), oracle c = false) :
    (exec oracle (Sys.init (.wordlist lines) n 0) sched).password_found = false ∧
    steps_taken oracle (Sys.init (.wordlist lines) n 0) sched ≤ 5 * lines.length + 2 + 2 * n ∧
    ((∀ t, step oracle (exec oracle (Sys.init (.wordlist lines) n 0) sched) t = none) →
      (exec oracle (Sys.init (.wordlist lines) n 0) sched).producer = .finished ∧
      (∀ w ∈ (exec oracle (Sys.init (.wordlist lines) n 0) sched).workers, w = .exited) ∧
      (exec oracle (Sys.init (.wordlist lines) n 0) sched).pushed.Perm
        ((lines.map strip_trailing).filter (· ≠ [])) ∧
      ((exec oracle (Sys.init (.wordlist lines) n 0) sched).tested.map Prod.snd).Perm
        (exec oracle (Sys.init (.wordlist lines) n 0) sched).pushed ∧
      (exec oracle (Sys.init (.wordlist lines) n 0) sched).attempts_made
        = ((lines.map strip_trailing).filter (· ≠ [])).length % 2 ^ 64 ∧
      (((lines.map strip_trailing).filter (· ≠ [])).length < 2 ^ 64 →
        (exec oracle (Sys.init (.wordlist lines) n 0) sched).attempts_made
          = ((lines.map strip_trailing).filter (· ≠ [])).length)) ∧
    (∃ sched', ∀ t, step oracle (exec oracle (Sys.init (.wordlist lines) n 0) sched') t = none) := by
  have hinv : Inv oracle (Source.wordlist lines).candidates
      (exec oracle (Sys.init (.wordlist lines) n 0) sched) :=
    inv_exec sched (inv_init oracle _ n 0)
  have hne : (exec oracle (Sys.init (.wordlist lines) n 0) sched).workers ≠ [] := by
    intro h
    have := exec_workers_length oracle sched (Sys.init (.wordlist lines) n 0)
    rw [h] at this
    simp [Sys.init] at this
    omega
  have hsteps := steps_taken_le oracle sched (Sys.init (.wordlist lines) n 0)
  rw [init_budget] at hsteps
  generalize exec oracle (Sys.init (.wordlist lines) n 0) sched = st at hinv hne ⊢
  have hcands : (Source.wordlist lines).candidates
      = (lines.map strip_trailing).filter (· ≠ []) := rfl
  rw [hcands] at hinv
  have hf : st.password_found = false := by
    cases h : st.password_found with
    | false => rfl
    | true =>
      obtain ⟨c, _, _, h3, h4⟩ := hinv.winner_one h
      rw [hrej c h4] at h3
      cases h3
  refine ⟨hf, hsteps, ?_, exists_complete_run oracle _ _ (Nat.le_refl _)⟩
  intro hq
  obtain ⟨hfin, hall, _⟩ := quiescent_final hinv hne hq
  obtain ⟨h1, h2⟩ := quiescent_exhausted hinv hne hq hf
  have hlen : st.tested.length = ((lines.map strip_trailing).filter (· ≠ [])).length := by
    rw [← h1.length_eq, ← h2.length_eq, List.length_map]
  have hatt := hinv.attempts
  rw [hlen] at hatt
  exact ⟨hfin, hall, h1, h2, hatt, fun hlt => by rw [hatt, Nat.mod_eq_of_lt hlt]⟩

theorem C6_exhaustion_witness :
    1 ≤ 2 ∧
    (∀ c ∈ (["wrong1".toList, "wrong2 ".toList, " ".toList, "wrong3".toList].map
      strip_trailing).filter (· ≠ []), reject_oracle c = false) ∧
    (∀ t, step reject_oracle (exec reject_oracle (Sys.init (.wordlist ["wrong1".toList,
      "wrong2 ".toList, " ".toList, "wrong3".toList]) 2 0) demo_schedule) t = none) ∧
    ((["wrong1".toList, "wrong2 ".toList, " ".toList, "wrong3".toList].map
      strip_trailing).filter (· ≠ [])).length < 2 ^ 64 ∧
    ((exec reject_oracle (Sys.init (.wordlist ["wrong1".toList, "wrong2 ".toList, " ".toList,
      "wrong3".toList]) 2 0) demo_schedule).password_found = false ∧
    steps_taken reject_oracle (Sys.init (.wordlist ["wrong1".toList, "wrong2 ".toList,
      " ".toList, "wrong3".toList]) 2 0) demo_schedule
      ≤ 5 * ["wrong1".toList, "wrong2 ".toList, " ".toList, "wrong3".toList].length + 2 + 2 * 2 ∧
    ((∀ t, step reject_oracle (exec reject_oracle (Sys.init (.wordlist ["wrong1".toList,
      "wrong2 ".toList, " ".toList, "wrong3".toList]) 2 0) demo_schedule) t = none) →
      (exec reject_oracle (Sys.init (.wordlist ["wrong1".toList, "wrong2 ".toList, " ".toList,
        "wrong3".toList]) 2 0) demo_schedule).producer = .finished ∧
      (∀ w ∈ (exec reject_oracle (Sys.init (.wordlist ["wrong1".toList, "wrong2 ".toList,
        " ".toList, "wrong3".toList]) 2 0) demo_schedule).workers, w = .exited) ∧
      (exec reject_oracle (Sys.init (.wordlist ["wrong1".toList, "wrong2 ".toList, " ".toList,
        "wrong3".toList]) 2 0) demo_schedule).pushed.Perm
        ((["wrong1".toList, "wrong2 ".toList, " ".toList, "wrong3".toList].map
          strip_trailing).filter (· ≠ [])) ∧
      ((exec reject_oracle (Sys.init (.wordlist ["wrong1".toList, "wrong2 ".toList, " ".toList,
        "wrong3".toList]) 2 0) demo_schedule).tested.map Prod.snd).Perm
        (exec reject_oracle (Sys.init (.wordlist ["wrong1".toList, "wrong2 ".toList, " ".toList,
        "wrong3".toList]) 2 0) demo_schedule).pushed ∧
      (exec reject_oracle (Sys.init (.wordlist ["wrong1".toList, "wrong2 ".toList, " ".toList,
        "wrong3".toList]) 2 0) demo_schedule).attempts_made
        = ((["wrong1".toList, "wrong2 ".toList, " ".toList, "wrong3".toList].map
          strip_trailing).filter (· ≠ [])).length % 2 ^ 64 ∧
      (((["wrong1".toList, "wrong2 ".toList, " ".toList, "wrong3".toList].map
          strip_trailing).filter (· ≠ [])).length < 2 ^ 64 →
        (exec reject_oracle (Sys.init (.wordlist ["wrong1".toList, "wrong2 ".toList, " ".toList,
          "wrong3".toList]) 2 0) demo_schedule).attempts_made
          = ((["wrong1".toList, "wrong2 ".toList, " ".toList, "wrong3".toList].map
            strip_trailing).filter (· ≠ [])).length)) ∧
    (∃ sched', ∀ t, step reject_oracle (exec reject_oracle (Sys.init (.wordlist ["wrong1".toList,
      "wrong2 ".toList, " ".toList, "wrong3".toList]) 2 0) sched') t = none)) :=
  ⟨by decide, by decide, quiescent_of_all_exited reject_oracle (by decide) (by decide),
    by decide,
    C6_exhaustion reject_oracle ["wrong1".toList, "wrong2 ".toList, " ".toList, "wrong3".toList]
      2 demo_schedule (by decide) (by decide)⟩

/-- A run of the exhaustion scenario under a round-robin schedule: three
candidates, all rejected, two workers; the run ends without a password, with
three attempts, all threads returned. -/
theorem exhaustion_scenario :
    (exec reject_oracle (Sys.init (.wordlist ["wrong1".toList, "wrong2 ".toList, " ".toList,
      "wrong3".toList]) 2 0) demo_schedule).password_found = false ∧
    (exec reject_oracle (Sys.init (.wordlist ["wrong1".toList, "wrong2 ".toList, " ".toList,
      "wrong3".toList]) 2 0) demo_schedule).attempts_made = 3 ∧
    (exec reject_oracle (Sys.init (.wordlist ["wrong1".toList, "wrong2 ".toList, " ".toList,
      "wrong3".toList]) 2 0) demo_schedule).producer = .finished ∧
    (exec reject_oracle (Sys.init (.wordlist ["wrong1".toList, "wrong2 ".toList, " ".toList,
      "wrong3".toList]) 2 0) demo_schedule).workers = [.exited, .exited] := by
  decide

/-! ## estimate_mask_size: lemmas -/

section EstimateLemmas

theorem estimate_mult_eq_class_size (c : Char) : estimate_mult c = class_size c := by
  unfold estimate_mult class_size
  split_ifs <;> rfl

/-- `safe_multiply` returns the exact product when it fits in 64 bits and
fails otherwise. -/
theorem safe_multiply_spec (a b : Nat) :
    safe_multiply a b = if a * b ≤ SIZE_MAX then some (a * b) else none := by
  unfold safe_multiply
  by_cases h0 : a = 0 ∨ b = 0
  · have hz : a * b = 0 := by
      rcases h0 with h | h <;> simp [h]
    simp [h0, hz]
  · have hb : 0 < b := by
      rcases Nat.eq_zero_or_pos b with h | h
      · exact absurd (Or.inr h) h0
      · exact h
    rw [if_neg h0]
    by_cases hov : a > SIZE_MAX / b
    · have : SIZE_MAX < a * b := (Nat.div_lt_iff_lt_mul hb).1 hov
      rw [if_pos hov, if_neg (by omega)]
    · have hle : a * b ≤ SIZE_MAX := by
        by_contra hn
        exact hov ((Nat.div_lt_iff_lt_mul hb).2 (by omega))
      have hlt : a * b < 2 ^ 64 := by
        have : SIZE_MAX = 2 ^ 64 - 1 := rfl
        omega
      rw [if_neg hov, if_pos hle, Nat.mod_eq_of_lt hlt]

theorem estimate_tokens_token {d : Char} {tl : List Char} {m : Nat}
    (h : class_size d = some m) :
    estimate_tokens ('?' :: d :: tl) = m :: estimate_tokens tl := by
  simp [estimate_tokens, h]

theorem estimate_tokens_skip_two {d : Char} {tl : List Char} (h : class_size d = none) :
    estimate_tokens ('?' :: d :: tl) = estimate_tokens tl := by
  simp [estimate_tokens, h]

theorem estimate_tokens_skip_one {c : Char} {tl : List Char} (h : ¬ (c = '?' ∧ tl ≠ [])) :
    estimate_tokens (c :: tl) = estimate_tokens tl := by
  cases tl with
  | nil => simp [estimate_tokens]
  | cons d tl' =>
    have hc : c ≠ '?' := fun hc => h ⟨hc, by simp⟩
    simp [estimate_tokens, hc]

theorem class_size_even {d : Char} {m : Nat} (h : class_size d = some m) :
    0 < m ∧ m % 2 = 0 := by
  unfold class_size at h
  split_ifs at h <;> (cases h; decide)

/-- Every recognised token has a positive even class size. -/
theorem estimate_tokens_even (n : Nat) :
    ∀ mask : List Char, mask.length ≤ n → ∀ m ∈ estimate_tokens mask, 0 < m ∧ m % 2 = 0 := by
  induction n with
  | zero =>
    intro mask h m hm
    have : mask = [] := List.length_eq_zero.1 (Nat.le_zero.1 h)
    subst this
    simp [estimate_tokens] at hm
  | succ n ih =>
    intro mask h m hm
    cases mask with
    | nil => simp [estimate_tokens] at hm
    | cons c tl =>
      by_cases hq : c = '?' ∧ tl ≠ []
      · obtain ⟨hc, htl⟩ := hq
        subst hc
        cases tl with
        | nil => exact absurd rfl htl
        | cons d tl' =>
          cases hs : class_size d with
          | none =>
            rw [estimate_tokens_skip_two hs] at hm
            exact ih tl' (by simp at h; omega) m hm
          | some k =>
            rw [estimate_tokens_token hs] at hm
            rcases List.mem_cons.1 hm with hm | hm
            · subst hm
              exact class_size_even hs
            · exact ih tl' (by simp at h; omega) m hm
      · rw [estimate_tokens_skip_one hq] at hm
        exact ih tl (by simp at h; omega) m hm

theorem prod_pos_of_forall_pos (l : List Nat) (h : ∀ m ∈ l, 0 < m) : 0 < l.prod := by
  induction l with
  | nil => simp
  | cons a l ih =>
    simp only [List.prod_cons]
    exact Nat.mul_pos (h a (by simp)) (ih fun m hm => h m (by simp [hm]))

theorem estimate_tokens_prod_pos (mask : List Char) : 0 < (estimate_tokens mask).prod :=
  prod_pos_of_forall_pos _ fun m hm => (estimate_tokens_even mask.length mask (Nat.le_refl _) m hm).1

/-- The product of the recognised class sizes is 1 or even, so it is never
the odd number `SIZE_MAX`. -/
theorem estimate_tokens_prod_ne (mask : List Char) : (estimate_tokens mask).prod ≠ SIZE_MAX := by
  have hall := estimate_tokens_even mask.length mask (Nat.le_refl _)
  cases hl : estimate_tokens mask with
  | nil => simp [SIZE_MAX]
  | cons a l =>
    rw [hl] at hall
    have ha := (hall a (by simp)).2
    simp only [List.prod_cons]
    intro h
    have h2 : (a * l.prod) % 2 = 0 := by
      rw [Nat.mul_mod, ha]
      simp
    rw [h] at h2
    simp [SIZE_MAX] at h2

/-- The loop of `estimate_mask_size` from index `i` with a running product
that fits in 64 bits: the exact product with the class sizes recognised in
the rest of the scan when that fits in 64 bits, `SIZE_MAX` when it does not. -/
theorem estimate_loop_spec (mask : List Char) (fuel : Nat) :
    ∀ (i total : Nat), mask.length - i ≤ fuel → total ≤ SIZE_MAX →
      estimate_loop mask fuel i total
        = if total * (estimate_tokens (mask.drop i)).prod ≤ SIZE_MAX
          then total * (estimate_tokens (mask.drop i)).prod else SIZE_MAX := by
  induction fuel with
  | zero =>
    intro i total h ht
    have hd : mask.drop i = [] := List.drop_eq_nil_of_le (by omega)
    simp [estimate_loop, hd, estimate_tokens, ht]
  | succ fuel ih =>
    intro i total h ht
    by_cases hi : i < mask.length
    · obtain ⟨c, tl, hdrop⟩ := exists_drop_cons hi
      obtain ⟨h1, _, _, hdrop1⟩ := drop_eq_cons hdrop
      simp only [estimate_loop, hi, if_true]
      by_cases hq : mask[i]? = some '?' ∧ i + 1 < mask.length
      · rw [if_pos hq]
        obtain ⟨hq1, hq2⟩ := hq
        have hc : c = '?' := by
          rw [h1] at hq1
          exact Option.some.inj hq1
        subst hc
        obtain ⟨d, tl', hdrop1'⟩ := exists_drop_cons hq2
        rw [hdrop1] at hdrop1'
        subst hdrop1'
        obtain ⟨_, _, g3, hdrop2⟩ := drop_eq_cons hdrop1
        rw [g3, estimate_mult_eq_class_size, hdrop]
        have ih2 := fun t ht' => ih (i + 2) t (by omega) ht'
        rw [show i + 1 + 1 = i + 2 from rfl] at hdrop2
        cases hs : class_size d with
        | none =>
          rw [estimate_tokens_skip_two hs]
          simp only
          rw [ih2 total ht, hdrop2]
        | some m =>
          rw [estimate_tokens_token hs]
          simp only [List.prod_cons]
          rw [safe_multiply_spec]
          have hpos := estimate_tokens_prod_pos tl'
          by_cases hm : total * m ≤ SIZE_MAX
          · rw [if_pos hm]
            simp only
            rw [ih2 (total * m) hm, hdrop2, Nat.mul_assoc]
          · rw [if_neg hm]
            simp only
            have : ¬ total * (m * (estimate_tokens tl').prod) ≤ SIZE_MAX := by
              intro hle
              apply hm
              calc total * m = total * m * 1 := (Nat.mul_one _).symm
                _ ≤ total * m * (estimate_tokens tl').prod := Nat.mul_le_mul_left _ hpos
                _ = total * (m * (estimate_tokens tl').prod) := Nat.mul_assoc _ _ _
                _ ≤ SIZE_MAX := hle
            rw [if_neg this]
      · rw [if_neg hq, ih (i + 1) total (by omega) ht, hdrop1, hdrop]
        have hskip : ¬ (c = '?' ∧ tl ≠ []) := by
          rintro ⟨hc, htl⟩
          apply hq
          refine ⟨by rw [h1, hc], ?_⟩
          by_contra hn
          have : mask.drop (i + 1) = [] := List.drop_eq_nil_of_le (by omega)
          rw [hdrop1] at this
          exact htl this
        rw [estimate_tokens_skip_one hskip]
    · have hd : mask.drop i = [] := List.drop_eq_nil_of_le (by omega)
      simp [estimate_loop, hi, hd, estimate_tokens, ht]

end EstimateLemmas

/-! ## estimate_mask_size: the claim -/

/-- C13: for every template, `estimate_mask_size` returns `SIZE_MAX`
(2^64 - 1) exactly when the product of the class sizes (10, 26, 26, 30, 62) of
the wildcard tokens it recognises in its scan from the left exceeds 2^64 - 1,
and returns that product itself, as a natural number, when it does not; and
`safe_multiply a b` returns the exact product `a * b` when it is at most
2^64 - 1 and fails otherwise. -/
theorem C13_estimate_exact_or_sentinel (mask : List Char) (a b : Nat) :
    (estimate_mask_size mask = SIZE_MAX ↔ SIZE_MAX < (estimate_tokens mask).prod) ∧
    estimate_mask_size mask
      = (if (estimate_tokens mask).prod ≤ SIZE_MAX then (estimate_tokens mask).prod
         else SIZE_MAX) ∧
    SIZE_MAX = 2 ^ 64 - 1 ∧
    safe_multiply a b = (if a * b ≤ SIZE_MAX then some (a * b) else none) := by
  have h := estimate_loop_spec mask mask.length 0 1 (by omega) (by decide)
  simp only [List.drop_zero, Nat.one_mul] at h
  have he : estimate_mask_size mask
      = (if (estimate_tokens mask).prod ≤ SIZE_MAX then (estimate_tokens mask).prod
         else SIZE_MAX) := h
  refine ⟨⟨fun hmax => ?_, fun hlt => ?_⟩, he, rfl, safe_multiply_spec a b⟩
  · by_contra hn
    rw [he, if_pos (by omega)] at hmax
    exact estimate_tokens_prod_ne mask hmax
  · rw [he, if_neg (by omega)]

/-! ## The work list of mask_producer -/

section GenLemmas

/-- A level of states that are not complete is replaced in `gen`, one state
per iteration, by the children of its states. -/
theorem mask_gen_after_level_open (mask : List Char) (gen : List PState) :
    ∀ (rest : List PState) (k : Nat), (∀ st ∈ gen, st.pos < mask.length) →
      mask_gen_after mask (k + gen.length) (gen ++ rest)
        = mask_gen_after mask k (rest ++ gen.flatMap (mask_children mask)) := by
  induction gen with
  | nil => intro rest k _; simp
  | cons st gen ih =>
    intro rest k hopen
    have hst : ¬ st.pos ≥ mask.length := by
      have := hopen st (by simp)
      omega
    have hrest : ∀ st' ∈ gen, st'.pos < mask.length := fun st' h => hopen st' (by simp [h])
    have e1 : k + (st :: gen).length = (k + gen.length) + 1 := by simp; omega
    have e2 : mask_gen_after mask ((k + gen.length) + 1) (st :: (gen ++ rest))
        = mask_gen_after mask (k + gen.length) ((gen ++ rest) ++ mask_children mask st) := by
      simp only [mask_gen_after, hst, if_false]
    rw [e1, List.cons_append, e2, List.append_assoc,
      ih (rest ++ mask_children mask st) k hrest]
    simp [List.append_assoc]

/-- From a level of states standing at position `p`, after some number of
iterations `gen` holds, all at once, every candidate below the level. -/
theorem mask_gen_after_levels (mask : List Char) (n : Nat) :
    ∀ (suffix : List Char) (p : Nat) (curs : List (List Char)),
      suffix.length ≤ n → mask.drop p = suffix → p ≤ mask.length →
      ∃ k, mask_gen_after mask k (curs.map fun c => ⟨c, p⟩)
        = (curs.flatMap fun cur => (spec_candidates suffix).map (cur ++ ·)).map
            fun c => ⟨c, mask.length⟩ := by
  induction n with
  | zero =>
    intro suffix p curs hlen hdrop hp
    have hs : suffix = [] := List.length_eq_zero.1 (Nat.le_zero.1 hlen)
    subst hs
    have hp' : mask.length ≤ p := List.drop_eq_nil_iff.1 hdrop
    have : p = mask.length := Nat.le_antisymm hp hp'
    subst this
    exact ⟨0, by simp [mask_gen_after, spec_candidates]⟩
  | succ n ih =>
    intro suffix p curs hlen hdrop hp
    cases suffix with
    | nil => exact ih [] p curs (by simp) hdrop hp
    | cons c tl =>
      obtain ⟨_, hplt, _, hdrop1⟩ := drop_eq_cons hdrop
      have hopen : ∀ st ∈ curs.map (fun c => (⟨c, p⟩ : PState)), st.pos < mask.length := by
        intro st hst
        obtain ⟨_, _, rfl⟩ := List.mem_map.1 hst
        exact hplt
      rcases token_cases c tl with ⟨d, tl', cs, hc, htl, hw⟩ | hl
      · subst hc htl
        obtain ⟨_, hplt1, _, hdrop2⟩ := drop_eq_cons hdrop1
        have hch : (curs.map fun c => (⟨c, p⟩ : PState)).flatMap (mask_children mask)
            = (curs.flatMap fun cur => cs.map fun x => cur ++ [x]).map fun c => ⟨c, p + 2⟩ := by
          rw [List.flatMap_map, List.map_flatMap]
          apply List.flatMap_congr
          intro cur _
          rw [@mask_children_wild mask ⟨cur, p⟩ d tl' cs hdrop hw, List.map_map]
          rfl
        obtain ⟨k, hk⟩ := ih tl' (p + 2) (curs.flatMap fun cur => cs.map fun x => cur ++ [x])
          (by simp at hlen; omega) hdrop2 (by omega)
        refine ⟨k + (curs.map fun c => (⟨c, p⟩ : PState)).length, ?_⟩
        have h := mask_gen_after_level_open mask (curs.map fun c => (⟨c, p⟩ : PState)) [] k hopen
        rw [List.append_nil, List.nil_append, hch] at h
        rw [h, hk, spec_candidates_wild hw]
        simp [List.flatMap_assoc, List.flatMap_map, List.map_flatMap, Function.comp_def]
      · have hch : (curs.map fun c => (⟨c, p⟩ : PState)).flatMap (mask_children mask)
            = (curs.map fun cur => cur ++ [c]).map fun c => ⟨c, p + 1⟩ := by
          rw [List.flatMap_map, List.map_map, List.map_eq_flatMap]
          apply List.flatMap_congr
          intro cur _
          rw [@mask_children_lit mask ⟨cur, p⟩ c tl hdrop hl]
          rfl
        obtain ⟨k, hk⟩ := ih tl (p + 1) (curs.map fun cur => cur ++ [c])
          (by simp at hlen; omega) hdrop1 (by omega)
        refine ⟨k + (curs.map fun c => (⟨c, p⟩ : PState)).length, ?_⟩
        have h := mask_gen_after_level_open mask (curs.map fun c => (⟨c, p⟩ : PState)) [] k hopen
        rw [List.append_nil, List.nil_append, hch] at h
        rw [h, hk, spec_candidates_lit hl]
        simp [List.flatMap_map, Function.comp_def]

/-- For every template there is an iteration after which `gen` holds the
whole candidate set: its states are exactly the candidates, all complete. -/
theorem mask_gen_holds_all (mask : List Char) :
    ∃ k, (mask_gen_after mask k [⟨[], 0⟩]).map (·.cur) = spec_candidates mask ∧
      complete_count mask (mask_gen_after mask k [⟨[], 0⟩]) = spec_count mask := by
  obtain ⟨k, hk⟩ := mask_gen_after_levels mask mask.length mask 0 [[]] (Nat.le_refl _) rfl
    (Nat.zero_le _)
  refine ⟨k, ?_⟩
  have hk' : mask_gen_after mask k [⟨[], 0⟩]
      = (spec_candidates mask).map fun c => ⟨c, mask.length⟩ := by
    simpa using hk
  rw [hk']
  constructor
  · simp [Function.comp_def]
  · simp [complete_count, List.filter_map, Function.comp_def, length_spec_candidates]

/-- The queue `gen` of the loop of `mask_producer` after `k` iterations of an
uninterrupted run is `mask_gen_after`. -/
theorem mask_loop_gen_after (mask : List Char) (found pushOk : Nat → Bool)
    (hf : ∀ k, found k = false) (hp : ∀ k, pushOk k = true) (k : Nat) :
    ∀ (gen : List PState) (j : Nat) (out : List (List Char)) (total : Nat),
      ∃ j' out' total', ∀ fuel,
        mask_loop mask found pushOk (fuel + 1 + k) j gen out total
          = mask_loop mask found pushOk (fuel + 1) j' (mask_gen_after mask k gen) out' total' := by
  induction k with
  | zero => intro gen j out total; exact ⟨j, out, total, fun _ => rfl⟩
  | succ k ih =>
    intro gen j out total
    cases gen with
    | nil =>
      refine ⟨j, out, total, fun fuel => ?_⟩
      simp [mask_loop, mask_gen_after]
    | cons st rest =>
      by_cases hst : st.pos ≥ mask.length
      · obtain ⟨j', out', total', h⟩ := ih rest (j + 1) (out ++ [st.cur]) ((total + 1) % 2 ^ 64)
        refine ⟨j', out', total', fun fuel => ?_⟩
        have e : mask_gen_after mask (k + 1) (st :: rest) = mask_gen_after mask k rest := by
          simp only [mask_gen_after, hst, if_true]
        rw [e, ← h fuel, show fuel + 1 + (k + 1) = (fuel + 1 + k) + 1 from rfl]
        simp only [mask_loop, hf, hp, hst, if_true, if_false, Bool.false_eq_true]
      · obtain ⟨j', out', total', h⟩ := ih (rest ++ mask_children mask st) (j + 1) out total
        refine ⟨j', out', total', fun fuel => ?_⟩
        have e : mask_gen_after mask (k + 1) (st :: rest)
            = mask_gen_after mask k (rest ++ mask_children mask st) := by
          simp only [mask_gen_after, hst, if_false]
        rw [e, ← h fuel, show fuel + 1 + (k + 1) = (fuel + 1 + k) + 1 from rfl]
        simp only [mask_loop, hf, hst, if_false, Bool.false_eq_true]

end GenLemmas

/-- C12 fails on the code: for the template `?d`, which has 10 candidates,
after the first iteration of the loop of `mask_producer` the work list `gen`
holds 10 complete candidates, the strings `0` to `9`: the full candidate
set, not strictly fewer than 10. -/
theorem C12_work_list_holds_all_candidates :
    spec_count "?d".toList = 10 ∧ 2 ≤ spec_count "?d".toList ∧
    complete_count "?d".toList (mask_gen_after "?d".toList 1 [⟨[], 0⟩]) = 10 ∧
    (mask_gen_after "?d".toList 1 [⟨[], 0⟩]).map (·.cur) = spec_candidates "?d".toList ∧
    (Source.mask "?d".toList [⟨[], 0⟩]).next
      = some (none, .mask "?d".toList (mask_gen_after "?d".toList 1 [⟨[], 0⟩])) ∧
    ¬ complete_count "?d".toList (mask_gen_after "?d".toList 1 [⟨[], 0⟩])
      < spec_count "?d".toList := by
  decide

/-! ## The counter total_passwords in a run -/

section TotalLemmas

/-- While the password is not found, `total_passwords` is its value at the
start of the run plus one for every candidate pushed or about to be pushed. -/
theorem total_step {oracle : List Char → Bool} {cands : List (List Char)} {s s' : Sys}
    {total0 : Nat} (hinv : Inv oracle cands s)
    (htot : s.password_found = false →
      s.total_passwords = (total0 + s.pushed.length + s.producer.counted_ahead) % 2 ^ 64)
    (h : Step oracle s s') :
    s'.password_found = false →
      s'.total_passwords = (total0 + s'.pushed.length + s'.producer.counted_ahead) % 2 ^ 64 := by
  cases h with
  | prod_exit hp hn =>
    intro hf
    have := htot hf
    rw [hp] at this
    simpa [ProducerPc.counted_ahead] using this
  | prod_stop hp hn hf =>
    intro hf'
    rw [hf] at hf'
    cases hf'
  | prod_skip hp hn hf =>
    intro hf'
    have := htot hf
    rw [hp] at this
    simpa [ProducerPc.counted_ahead] using this
  | prod_item hp hn hf =>
    intro hf'
    have := htot hf
    rw [hp] at this
    simp only [ProducerPc.counted_ahead] at this ⊢
    omega
  | prod_push hp hlt hd =>
    intro hf'
    have := htot hf'
    rw [hp] at this
    simp only [ProducerPc.counted_ahead, List.length_append, List.length_singleton] at this ⊢
    omega
  | prod_push_closed hp hd =>
    intro hf'
    rcases hinv.done_cause hd with hf | hfin
    · rw [hf] at hf'
      cases hf'
    · rw [hp] at hfin
      cases hfin
  | prod_close hp =>
    intro hf
    have := htot hf
    rw [hp] at this
    simpa [ProducerPc.counted_ahead] using this
  | w_stop hw hf => exact htot
  | w_go hw hf => exact htot
  | w_pop hw hq => exact htot
  | w_drained hw hq hd => exact htot
  | w_reject hw ho => exact htot
  | w_accept hw ho => exact htot
  | w_claim hw hf =>
    intro hf'
    cases hf'
  | w_lose hw hf => exact htot

theorem total_exec {oracle : List Char → Bool} {cands : List (List Char)} {total0 : Nat}
    (sched : List Tid) :
    ∀ {s : Sys}, Inv oracle cands s →
      (s.password_found = false →
        s.total_passwords = (total0 + s.pushed.length + s.producer.counted_ahead) % 2 ^ 64) →
      ((exec oracle s sched).password_found = false →
        (exec oracle s sched).total_passwords
          = (total0 + (exec oracle s sched).pushed.length
              + (exec oracle s sched).producer.counted_ahead) % 2 ^ 64) := by
  induction sched with
  | nil => intro s _ htot; exact htot
  | cons t ts ih =>
    intro s hinv htot
    simp only [exec]
    cases h : step oracle s t with
    | none => exact ih hinv htot
    | some s' =>
      have hs := step_sound oracle s s' t h
      exact ih (inv_step hinv hs) (total_step hinv htot hs)

/-- Where a run with at least one worker has come to rest without a password
found, `total_passwords` is its value at the start plus the number of
candidates, and `attempts_made` is the number of candidates. -/
theorem total_passwords_at_rest (oracle : List Char → Bool) (src : Source) (n total0 : Nat)
    (sched : List Tid) (hn : 1 ≤ n) (ht : total0 < 2 ^ 64)
    (hq : ∀ t, step oracle (exec oracle (Sys.init src n total0) sched) t = none)
    (hf : (exec oracle (Sys.init src n total0) sched).password_found = false) :
    (exec oracle (Sys.init src n total0) sched).total_passwords
        = (total0 + src.candidates.length) % 2 ^ 64 ∧
    (exec oracle (Sys.init src n total0) sched).attempts_made
        = src.candidates.length % 2 ^ 64 := by
  have hinv : Inv oracle src.candidates (exec oracle (Sys.init src n total0) sched) :=
    inv_exec sched (inv_init oracle src n total0)
  have htot := @total_exec oracle src.candidates total0 sched (Sys.init src n total0)
    (inv_init oracle src n total0)
    (fun _ => by
      simp only [Sys.init, ProducerPc.counted_ahead, List.length_nil, Nat.add_zero,
        Nat.mod_eq_of_lt ht]) hf
  have hne : (exec oracle (Sys.init src n total0) sched).workers ≠ [] := by
    intro h
    have := exec_workers_length oracle sched (Sys.init src n total0)
    rw [h] at this
    simp [Sys.init] at this
    omega
  generalize exec oracle (Sys.init src n total0) sched = st at hinv hne hq hf htot ⊢
  obtain ⟨hfin, _, _⟩ := quiescent_final hinv hne hq
  obtain ⟨h1, h2⟩ := quiescent_exhausted hinv hne hq hf
  have hlen1 : st.pushed.length = src.candidates.length := h1.length_eq
  have hlen2 : st.tested.length = st.pushed.length := by
    rw [← h2.length_eq, List.length_map]
  constructor
  · rw [htot, hfin, hlen1]
    rfl
  · rw [hinv.attempts, hlen2, hlen1]

theorem estimate_mask_size_pos (mask : List Char) : 1 ≤ estimate_mask_size mask := by
  have h := estimate_loop_spec mask mask.length 0 1 (by omega) (by decide)
  simp only [List.drop_zero, Nat.one_mul] at h
  have he : estimate_mask_size mask
      = (if (estimate_tokens mask).prod ≤ SIZE_MAX then (estimate_tokens mask).prod
         else SIZE_MAX) := h
  rw [he]
  have := estimate_tokens_prod_pos mask
  split_ifs
  · exact this
  · decide

/-- In mask mode `main` stores the estimate in `total_passwords` and
`mask_producer` then adds one per candidate: for every accepted template,
where a run with at least one worker and no match has come to rest,
`total_passwords` is the estimate plus the number of candidates, which is
neither the number of candidates nor `attempts_made`. -/
theorem total_passwords_double_counted (oracle : List Char → Bool) (mask : List Char) (n : Nat)
    (sched : List Tid) (hn : 1 ≤ n) (hacc : mask_accepted mask = true)
    (hrej : ∀ c ∈ spec_candidates mask, oracle c = false)
    (hq : ∀ t, step oracle
      (exec oracle (Sys.init (.mask mask [⟨[], 0⟩]) n (estimate_mask_size mask)) sched) t = none) :
    (exec oracle (Sys.init (.mask mask [⟨[], 0⟩]) n (estimate_mask_size mask)) sched).password_found
        = false ∧
    (exec oracle (Sys.init (.mask mask [⟨[], 0⟩]) n (estimate_mask_size mask)) sched).attempts_made
        = spec_count mask % 2 ^ 64 ∧
    (exec oracle (Sys.init (.mask mask [⟨[], 0⟩]) n (estimate_mask_size mask)) sched).total_passwords
        = (estimate_mask_size mask + spec_count mask) % 2 ^ 64 ∧
    (exec oracle (Sys.init (.mask mask [⟨[], 0⟩]) n (estimate_mask_size mask)) sched).total_passwords
        ≠ spec_count mask ∧
    (exec oracle (Sys.init (.mask mask [⟨[], 0⟩]) n (estimate_mask_size mask)) sched).total_passwords
        ≠ (exec oracle (Sys.init (.mask mask [⟨[], 0⟩]) n (estimate_mask_size mask))
            sched).attempts_made := by
  have hpos := estimate_mask_size_pos mask
  have hle : estimate_mask_size mask ≤ MAX_MASK_SIZE := by
    unfold mask_accepted at hacc
    split_ifs at hacc with h1 h2
    omega
  have hmax : MAX_MASK_SIZE = 15000000 := rfl
  have hcands : (Source.mask mask [⟨[], 0⟩]).candidates = spec_candidates mask :=
    candidates_template mask
  have hinv : Inv oracle (Source.mask mask [⟨[], 0⟩]).candidates
      (exec oracle (Sys.init (.mask mask [⟨[], 0⟩]) n (estimate_mask_size mask)) sched) :=
    inv_exec sched (inv_init oracle _ n _)
  have hf : (exec oracle (Sys.init (.mask mask [⟨[], 0⟩]) n (estimate_mask_size mask))
      sched).password_found = false := by
    cases h : (exec oracle (Sys.init (.mask mask [⟨[], 0⟩]) n (estimate_mask_size mask))
        sched).password_found with
    | false => rfl
    | true =>
      obtain ⟨c, _, _, h3, h4⟩ := hinv.winner_one h
      rw [hcands] at h4
      rw [hrej c h4] at h3
      cases h3
  obtain ⟨h1, h2⟩ := total_passwords_at_rest oracle (.mask mask [⟨[], 0⟩]) n
    (estimate_mask_size mask) sched hn (by omega) hq hf
  rw [hcands, length_spec_candidates] at h1 h2
  refine ⟨hf, h2, h1, ?_, ?_⟩
  · rw [h1]
    omega
  · rw [h1, h2]
    omega

end TotalLemmas

/-- C11 fails on the code: for the accepted template `?d` (estimate 10, 10
candidates), a run of `mask_producer` and two workers with no match, started
as `main` starts it with `total_passwords` set to the estimate, comes to rest
with `attempts_made` = 10 and `total_passwords` = 20; an uninterrupted
`mask_producer` run alone leaves `total_passwords` at 20. -/
theorem C11_total_passwords_double_counted :
    mask_accepted "?d".toList = true ∧ estimate_mask_size "?d".toList = 10 ∧
    spec_count "?d".toList = 10 ∧
    (exec reject_oracle (Sys.init (.mask "?d".toList [⟨[], 0⟩]) 2
      (estimate_mask_size "?d".toList)) (round_robin 30)).producer = .finished ∧
    (exec reject_oracle (Sys.init (.mask "?d".toList [⟨[], 0⟩]) 2
      (estimate_mask_size "?d".toList)) (round_robin 30)).workers = [.exited, .exited] ∧
    (exec reject_oracle (Sys.init (.mask "?d".toList [⟨[], 0⟩]) 2
      (estimate_mask_size "?d".toList)) (round_robin 30)).password_found = false ∧
    (exec reject_oracle (Sys.init (.mask "?d".toList [⟨[], 0⟩]) 2
      (estimate_mask_size "?d".toList)) (round_robin 30)).attempts_made = 10 ∧
    (exec reject_oracle (Sys.init (.mask "?d".toList [⟨[], 0⟩]) 2
      (estimate_mask_size "?d".toList)) (round_robin 30)).total_passwords = 20 ∧
    mask_producer "?d".toList never_found always_pushed (estimate_mask_size "?d".toList) 12
      = some ⟨spec_candidates "?d".toList, 20, true⟩ := by
  decide

end ZipCracker
